import Mathlib

/-!
# Alpha-gamma counter (`src/server/agc_server.cpp`): correlation engine

Shallow embedding of the acquisition loop of `main`: the reordering window
(`time_shift`), the finalization of released events (totals, singles spectra,
active backlogs, coincidence scans), the configuration guard `_match_confs`
and the load / save of the three stores.

Conventions of the embedding.
* `unsigned` values are naturals with an explicit `% 2 ^ 32`, `uint64_t`
  values are naturals with an explicit `% 2 ^ 64` wherever the program
  computes with them.
* `int` values are integers; C++ leaves signed overflow undefined, so the
  embedding describes the executions in which no `int` expression overflows.
* Heap arrays are functions from the index to the stored word; their
  allocation sizes are the separate definitions `ENmax_alpha`, `ENmax_gamma`,
  `alpha_binN`, `gamma_binN` and `two_interval`.
* Files are lists: bytes for the two configuration files, 32-bit words for
  the `.dat` stores; `none` is a file that does not exist.
* `std::sort` is library code.  The routine is a parameter `std_sort` of the
  embedding, of which the theorems assume what the C++ standard promises
  (`std_sort_contract`); concrete runs are evaluated with `insertion_sort`,
  which meets that contract.  On a stream in which `sortfun` separates every
  two different events all routines that meet it give the same run
  (`window_run_unique`, `acquire_unique`).
* Where C++ leaves the behaviour of the program undefined the embedding
  returns `none` and says nothing about what follows: a call of `std::sort`
  on a buffer on which `sortfun` is no ordering (`sort`), a store file shorter
  than the array read from it, whose remaining words are left uninitialised
  (`load_array`, `load_bins`).
* The TCP telemetry of the loop is embedded apart from the stores
  (`acquire_tcp`); the outcome of each `send` is an input.
* Left out: console output, the FPGA interface (the samples it delivers are
  the list handed to `acquire`), the set-up of the listening socket and
  `duration.txt`.
-/

namespace AGC

/-! ## Data model -/

/-- The `struct peak` of the source: tick count, amplitude, channel flag. -/
structure peak where
  time : Nat
  amp : Int
  isalpha : Bool
deriving DecidableEq, Repr

/-- The configuration globals of the source, after `_load_conf` and the
conversion of `interval` to ticks (`interval_uint`). -/
structure Conf where
  alpha_thresh : Int
  alpha_edge : Bool
  gamma_thresh : Int
  gamma_edge : Bool
  interval_uint : Nat
  step_alpha : Nat
  step_gamma : Nat
  alpha_max : Int
  gamma_max : Int
deriving DecidableEq, Repr

/-- Conversion of an `int` to `unsigned`. -/
def toU32 (x : Int) : Nat := (x % 4294967296).toNat

/-- The `uint64_t` difference `x - y`. -/
def sub64 (x y : Nat) : Nat := (x + 18446744073709551616 - y) % 18446744073709551616

/-- The comparator handed to `std::sort`. -/
def sortfun (a b : peak) : Bool :=
  if a.time = b.time then a.isalpha == true else decide (a.time < b.time)

/-- The comparator orders the elements of `l`: no two of them, at different
positions, are each placed before the other.  `sortfun a b` and `sortfun b a`
are both true exactly when `a` and `b` are alpha events of one tick. -/
def sortfun_valid (l : List peak) : Bool :=
  decide (l.Pairwise fun a b => ¬ (sortfun a b = true ∧ sortfun b a = true))

/-- What the C++ standard promises of the library routine `std::sort` called
with `sortfun`, for a routine `std_sort` that takes the buffer to the buffer it
leaves: on a buffer that `sortfun` orders, the result holds the same elements
and no element of it is placed by `sortfun` before an element in front of it.
The standard leaves open in which order elements that `sortfun` does not
separate (gamma events of one tick) come out. -/
def std_sort_contract (std_sort : List peak → List peak) : Prop :=
  ∀ l : List peak, sortfun_valid l = true →
    (std_sort l).Perm l ∧ (std_sort l).Pairwise fun a b => sortfun b a = false

/-- The call `sort (time_shift.begin(), time_shift.end(), sortfun)` with the
library routine `std_sort`.  `std::sort` requires a comparator that is a
strict weak ordering of the elements.  Where two alpha events of the buffer
carry the same tick `sortfun` is no such ordering and the behaviour of the
call is undefined (`none`). -/
def sort (std_sort : List peak → List peak) (l : List peak) : Option (List peak) :=
  if sortfun_valid l then some (std_sort l) else none

/-- One insertion step of `insertion_sort`: `x` goes in front of the first
element that `sortfun` places after it. -/
def sort_insert (x : peak) : List peak → List peak
  | [] => [x]
  | y :: l => if sortfun x y then x :: y :: l else y :: sort_insert x l

/-- A routine that meets `std_sort_contract`, with which concrete runs are
evaluated: an insertion sort driven by the comparator of the program, the
elements inserted in the order in which the buffer holds them. -/
def insertion_sort (l : List peak) : List peak :=
  l.foldl (fun acc x => sort_insert x acc) []

/-- The variable `ENmax_alpha` of `main`. -/
def ENmax_alpha (c : Conf) : Int :=
  if !c.alpha_edge then c.alpha_max - c.alpha_thresh + 1
  else -(c.alpha_max - c.alpha_thresh) + 1

/-- The variable `ENmax_gamma` of `main`. -/
def ENmax_gamma (c : Conf) : Int :=
  if !c.gamma_edge then c.gamma_max - c.gamma_thresh + 1
  else -(c.gamma_max - c.gamma_thresh) + 1

/-- The variable `alpha_binN` of `main`: `ENmax_alpha/step_alpha+1` in
unsigned arithmetic. -/
def alpha_binN (c : Conf) : Nat := (toU32 (ENmax_alpha c) / c.step_alpha + 1) % 4294967296

/-- The variable `gamma_binN` of `main`. -/
def gamma_binN (c : Conf) : Nat := (toU32 (ENmax_gamma c) / c.step_gamma + 1) % 4294967296

/-- The expression `2*interval_uint`, the allocated length of the offset axis. -/
def two_interval (c : Conf) : Nat := (2 * c.interval_uint) % 4294967296

/-- The expression `abs(amp-alpha_thresh)/step_alpha` stored in `unsigned a`. -/
def alpha_bin (c : Conf) (amp : Int) : Nat :=
  toU32 ((amp - c.alpha_thresh).natAbs) / c.step_alpha

/-- The expression `abs(amp-gamma_thresh)/step_gamma` stored in `unsigned b`. -/
def gamma_bin (c : Conf) (amp : Int) : Nat :=
  toU32 ((amp - c.gamma_thresh).natAbs) / c.step_gamma

/-- The statement `arr[k]++` on an array of `unsigned`. -/
def inc1 (arr : Nat → Nat) (k : Nat) : Nat → Nat :=
  fun i => if i = k then (arr i + 1) % 4294967296 else arr i

/-- The statement `bins[a][b][k]++`. -/
def inc3 (bins : Nat → Nat → Nat → Nat) (a b k : Nat) : Nat → Nat → Nat → Nat :=
  fun i j l => if i = a ∧ j = b ∧ l = k then (bins i j l + 1) % 4294967296 else bins i j l

/-- The mutable state of the acquisition loop. -/
structure State where
  N_alpha : Nat
  N_gamma : Nat
  alpha_array : Nat → Nat
  gamma_array : Nat → Nat
  bins : Nat → Nat → Nat → Nat
  active_trig_alpha : List peak
  active_trig_gamma : List peak
  time_shift : List peak

/-! ## Coincidence scans -/

/-- Body of the `else` branch of the gamma-triggered scan: the gamma event
`(timestamp, amplitude)` against the backlog entry `p`. -/
def gamma_hit (c : Conf) (timestamp : Nat) (amplitude : Int) (p : peak)
    (bins : Nat → Nat → Nat → Nat) : Nat → Nat → Nat → Nat :=
  let a := alpha_bin c p.amp
  let b := gamma_bin c amplitude
  let off := (c.interval_uint + sub64 timestamp p.time) % 18446744073709551616
  if off < two_interval c then
    if a < alpha_binN c ∧ b < gamma_binN c then inc3 bins a b off else bins
  else bins

/-- Body of the `else` branch of the alpha-triggered scan: the alpha event
`(timestamp, amplitude)` against the backlog entry `p`. -/
def alpha_hit (c : Conf) (timestamp : Nat) (amplitude : Int) (p : peak)
    (bins : Nat → Nat → Nat → Nat) : Nat → Nat → Nat → Nat :=
  let a := alpha_bin c amplitude
  let b := gamma_bin c p.amp
  let off := sub64 c.interval_uint (sub64 timestamp p.time)
  if off ≤ c.interval_uint then
    if a < alpha_binN c ∧ b < gamma_binN c then inc3 bins a b off else bins
  else bins

/-- The loop `for (int j=0;j!=active_trig_alpha.size();j++)` run for a gamma
event.  `q` is the deque, `j` the loop index; `pop_front(); j--;` followed by
the `j++` of the loop header leaves `j` where it is.  Every iteration lowers
`size - j` by one, which the first argument counts. -/
def scan_alpha (c : Conf) (timestamp : Nat) (amplitude : Int) :
    Nat → Nat → List peak → (Nat → Nat → Nat → Nat) → List peak × (Nat → Nat → Nat → Nat)
  | 0, _, q, bins => (q, bins)
  | fuel + 1, j, q, bins =>
    match q[j]? with
    | none => (q, bins)
    | some p =>
      if timestamp ≥ (p.time + c.interval_uint) % 18446744073709551616 then
        scan_alpha c timestamp amplitude fuel j q.tail bins
      else
        scan_alpha c timestamp amplitude fuel (j + 1) q (gamma_hit c timestamp amplitude p bins)

/-- The loop `for (int j=0;j!=active_trig_gamma.size();j++)` run for an alpha
event. -/
def scan_gamma (c : Conf) (timestamp : Nat) (amplitude : Int) :
    Nat → Nat → List peak → (Nat → Nat → Nat → Nat) → List peak × (Nat → Nat → Nat → Nat)
  | 0, _, q, bins => (q, bins)
  | fuel + 1, j, q, bins =>
    match q[j]? with
    | none => (q, bins)
    | some p =>
      if timestamp > (p.time + c.interval_uint) % 18446744073709551616 then
        scan_gamma c timestamp amplitude fuel j q.tail bins
      else
        scan_gamma c timestamp amplitude fuel (j + 1) q (alpha_hit c timestamp amplitude p bins)

/-! ## Finalization of one released event -/

/-- Totals and singles spectrum update (the first `if (isalpha)` of the
release loop). -/
def count_single (c : Conf) (e : peak) (s : State) : State :=
  if e.isalpha then
    { s with
      N_alpha := (s.N_alpha + 1) % 18446744073709551616
      alpha_array :=
        if ((e.amp - c.alpha_thresh).natAbs : Int) < ENmax_alpha c then
          inc1 s.alpha_array (e.amp - c.alpha_thresh).natAbs
        else s.alpha_array }
  else
    { s with
      N_gamma := (s.N_gamma + 1) % 18446744073709551616
      gamma_array :=
        if ((e.amp - c.gamma_thresh).natAbs : Int) < ENmax_gamma c then
          inc1 s.gamma_array (e.amp - c.gamma_thresh).natAbs
        else s.gamma_array }

/-- Backlog append (the second `if (isalpha)`): `emplace_back()` creates a
zeroed `peak`, of which `time` and `amp` are then assigned. -/
def push_active (e : peak) (s : State) : State :=
  if e.isalpha then
    { s with active_trig_alpha := s.active_trig_alpha ++ [⟨e.time, e.amp, false⟩] }
  else
    { s with active_trig_gamma := s.active_trig_gamma ++ [⟨e.time, e.amp, false⟩] }

/-- The two coincidence scans (the `if (!isalpha)` of the release loop). -/
def coincidence (c : Conf) (e : peak) (s : State) : State :=
  if !e.isalpha then
    let r := scan_alpha c e.time e.amp s.active_trig_alpha.length 0 s.active_trig_alpha s.bins
    { s with active_trig_alpha := r.1, bins := r.2 }
  else
    let r := scan_gamma c e.time e.amp s.active_trig_gamma.length 0 s.active_trig_gamma s.bins
    { s with active_trig_gamma := r.1, bins := r.2 }

/-- Everything the release loop does with one popped event. -/
def finalize (c : Conf) (e : peak) (s : State) : State :=
  coincidence c e (push_active e (count_single c e s))

/-- The engine run over a sequence of finalized events. -/
def engine (c : Conf) (s : State) (evs : List peak) : State :=
  evs.foldl (fun st e => finalize c e st) s

/-! ## Reordering window and acquisition loop -/

/-- The test of the release loop:
`time_shift.back().time>time_shift.front().time+2*interval_uint`. -/
def release_cond (c : Conf) (front back : peak) : Bool :=
  decide (back.time > (front.time + two_interval c) % 18446744073709551616)

/-- The loop `while (back.time > front.time + 2*interval_uint)`, with its
closing `if (time_shift.empty()) break;`.  Each iteration pops one event, so
the first argument is taken to be the length of the buffer. -/
def release_loop (c : Conf) : Nat → State → State
  | 0, s => s
  | fuel + 1, s =>
    match s.time_shift with
    | [] => s
    | front :: rest =>
      if release_cond c front ((front :: rest).getLast (List.cons_ne_nil front rest)) then
        release_loop c fuel (finalize c front { s with time_shift := rest })
      else s

/-- One iteration of the acquisition loop that obtained the sample `x`:
append, sort, release.  `none` when the call of `std::sort` is undefined. -/
def step (std_sort : List peak → List peak) (c : Conf) (s : State) (x : peak) :
    Option State :=
  match sort std_sort (s.time_shift ++ [x]) with
  | none => none
  | some buf => some (release_loop c buf.length { s with time_shift := buf })

/-- The acquisition loop over the samples obtained before it is left. -/
def acquire (std_sort : List peak → List peak) (c : Conf) : State → List peak → Option State
  | s, [] => some s
  | s, x :: xs =>
    match step std_sort c s x with
    | none => none
    | some s1 => acquire std_sort c s1 xs

/-- The release loop seen from the buffer alone: the events popped, in the
order they are popped, and the buffer that is left. -/
def window_release (c : Conf) : Nat → List peak → List peak × List peak
  | 0, buf => ([], buf)
  | fuel + 1, buf =>
    match buf with
    | [] => ([], [])
    | front :: rest =>
      if release_cond c front ((front :: rest).getLast (List.cons_ne_nil front rest)) then
        let r := window_release c fuel rest
        (front :: r.1, r.2)
      else ([], front :: rest)

/-- The window after one arriving event: what it finalizes and what it keeps.
`none` when the call of `std::sort` is undefined. -/
def window_step (std_sort : List peak → List peak) (c : Conf) (buf : List peak) (x : peak) :
    Option (List peak × List peak) :=
  match sort std_sort (buf ++ [x]) with
  | none => none
  | some l => some (window_release c l.length l)

/-- The window over a sequence of arriving events, started on the buffer
`buf`: all events finalized, in order, and the final buffer. -/
def window_run (std_sort : List peak → List peak) (c : Conf) :
    List peak → List peak → Option (List peak × List peak)
  | buf, [] => some ([], buf)
  | buf, x :: xs =>
    match window_step std_sort c buf x with
    | none => none
    | some r =>
      match window_run std_sort c r.2 xs with
      | none => none
      | some r2 => some (r.1 ++ r2.1, r2.2)

/-! ## Persistence -/

/-- The files the program reads and writes. -/
structure Disk where
  agc_conf : List Nat
  measurements_agc_conf : List Nat
  alpha_dat : Option (List Nat)
  gamma_dat : Option (List Nat)
  time_dat : Option (List Nat)
  timesum_dat : Option (List Nat)
deriving DecidableEq, Repr

/-- The function `_match_confs`: the result and the disk it leaves.  A missing
`measurements/agc_conf.txt` reads as the empty string. -/
def _match_confs (d : Disk) : Bool × Disk :=
  if d.measurements_agc_conf.isEmpty then
    (false, { d with measurements_agc_conf := d.agc_conf })
  else if d.agc_conf ≠ d.measurements_agc_conf then (true, d)
  else (false, d)

/-- Start of a singles array of `n` words: `new unsigned[n]` followed by the
`fread` of `n` words when the file exists, by the zero fill when it does not.
The array is not cleared before the `fread`, so a file of fewer than `n`
words leaves the words it does not reach uninitialised: their value is
indeterminate and the result is `none`.  Indices from `n` on lie outside the
array; the function is 0 there. -/
def load_array (n : Nat) (file : Option (List Nat)) : Option (Nat → Nat) :=
  match file with
  | some f => if n ≤ f.length then some (fun i => if i < n then f.getD i 0 else 0) else none
  | none => some (fun _ => 0)

/-- Start of the cube: consecutive `fread`s of `2*interval_uint` words into
`bins[i][j]` when `time.dat` exists, the zero fill when it does not.  As for
`load_array`, a file that ends before the last row is read leaves
uninitialised words (`none`). -/
def load_bins (c : Conf) (file : Option (List Nat)) : Option (Nat → Nat → Nat → Nat) :=
  match file with
  | some f =>
      if alpha_binN c * gamma_binN c * two_interval c ≤ f.length then
        some (fun i j k =>
          if i < alpha_binN c ∧ j < gamma_binN c ∧ k < two_interval c then
            f.getD ((i * gamma_binN c + j) * two_interval c + k) 0
          else 0)
      else none
  | none => some (fun _ _ _ => 0)

/-- The state with which the acquisition loop is entered.  A negative `ENmax`
allocates nothing meaningful; it is read as the length 0. -/
def load (c : Conf) (d : Disk) : Option State :=
  match load_array (ENmax_alpha c).toNat d.alpha_dat,
    load_array (ENmax_gamma c).toNat d.gamma_dat, load_bins c d.time_dat with
  | some a, some g, some b =>
    some
      { N_alpha := 0
        N_gamma := 0
        alpha_array := a
        gamma_array := g
        bins := b
        active_trig_alpha := []
        active_trig_gamma := []
        time_shift := [] }
  | _, _, _ => none

/-- The words `fwrite` puts out for an array of `n` words. -/
def dump_array (n : Nat) (arr : Nat → Nat) : List Nat := (List.range n).map arr

/-- The content written to `time.dat`: `bins[i][j]` in full, `i` outermost. -/
def dump_bins (c : Conf) (bins : Nat → Nat → Nat → Nat) : List Nat :=
  (List.range (alpha_binN c)).flatMap fun i =>
    (List.range (gamma_binN c)).flatMap fun j =>
      dump_array (two_interval c) (bins i j)

/-- The loop `for (k...) timesum[k]+=bins[i][j][k]` for one `(i, j)`. -/
def timesum_add (c : Conf) (row : Nat → Nat) (timesum : Nat → Nat) : Nat → Nat :=
  fun k => if k < two_interval c then (timesum k + row k) % 4294967296 else timesum k

/-- The array `timesum` after the two nested saving loops. -/
def timesum (c : Conf) (bins : Nat → Nat → Nat → Nat) : Nat → Nat :=
  (List.range (alpha_binN c)).foldl
    (fun ts i => (List.range (gamma_binN c)).foldl (fun ts2 j => timesum_add c (bins i j) ts2) ts)
    (fun _ => 0)

/-- The saving sequence at the end of `main`. -/
def save (c : Conf) (s : State) (d : Disk) : Disk :=
  { d with
    alpha_dat := some (dump_array (ENmax_alpha c).toNat s.alpha_array)
    gamma_dat := some (dump_array (ENmax_gamma c).toNat s.gamma_array)
    time_dat := some (dump_bins c s.bins)
    timesum_dat := some (dump_array (two_interval c) (timesum c s.bins)) }

/-- The program from the configuration guard on, for the samples obtained
until the loop is left.  The result is the disk at exit and what became of
the run: `none` when the guard refused it, `some (some s)` when it reached the
saving sequence in the state `s`, `some none` when it got past the guard and
then left defined behaviour (`load`, `acquire`); the stores are then returned
as the guard left them, of which C++ promises nothing. -/
def main (std_sort : List peak → List peak) (c : Conf) (d : Disk) (samples : List peak) :
    Disk × Option (Option State) :=
  let m := _match_confs d
  if m.1 then (m.2, none)
  else
    match (load c m.2).bind fun s0 => acquire std_sort c s0 samples with
    | some s => (save c s m.2, some (some s))
    | none => (m.2, some none)

/-! ## Telemetry -/

/-- The TCP globals the acquisition loop uses. `sent` is the stream as the
subscriber sees it: the strings that a call of `send` accepted on the client
socket, in order. -/
structure Tcp where
  tcp_connected : Bool
  client_socket : Int
  sent : List String

/-- The function `accept_tcp_connection`, for the descriptor `sock` that
`accept` returns: the result and the globals it leaves. The result of the
`send` of the header line is not looked at by the program; `header_ok` says
whether that `send` accepted the line. -/
def accept_tcp_connection (sock : Int) (header_ok : Bool) (t : Tcp) : Bool × Tcp :=
  if sock < 0 then (false, { t with client_socket := sock })
  else
    (true,
      { tcp_connected := true
        client_socket := sock
        sent :=
          if header_ok then t.sent ++ ["time_alpha,amp_alpha,time_gamma,amp_gamma\n"]
          else t.sent })

/-- The function `send_tcp_data`; `ok` says whether `send` returned a
non-negative count. -/
def send_tcp_data (data : String) (ok : Bool) (t : Tcp) : Tcp :=
  if t.tcp_connected && decide (t.client_socket ≥ 0) then
    if ok then { t with sent := t.sent ++ [data] }
    else { t with tcp_connected := false }
  else t

/-- The text assembled in `csv_line`. `fmt_time ts` stands for what the stream
prints, under `std::fixed << std::setprecision(6)`, for the double
`timestamp/125000000.0`, and `fmt_amp a` for the double
`amplitude*0.0001220703125`; both are library formatting of floating-point
values and are taken as given. -/
def csv_line (fmt_time : Nat → String) (fmt_amp : Int → String) (x : peak) : String :=
  if x.isalpha then fmt_time x.time ++ "," ++ fmt_amp x.amp ++ "," ++ "0,0\n"
  else "0,0," ++ fmt_time x.time ++ "," ++ fmt_amp x.amp ++ "\n"

/-- The block `if (tcp_connected) ... send_tcp_data(csv_line.str());` at the
head of an iteration that obtained the sample `x`. -/
def stream_sample (fmt_time : Nat → String) (fmt_amp : Int → String) (x : peak) (ok : Bool)
    (t : Tcp) : Tcp :=
  if t.tcp_connected then send_tcp_data (csv_line fmt_time fmt_amp x) ok t else t

/-- One iteration of the acquisition loop with its telemetry: the line is sent
first, then the sample is appended to the window and `step` runs. Each sample
comes with the outcome of the `send` it may cause.  `none` when `step` leaves
defined behaviour: nothing is then known of the stream either. -/
def step_tcp (std_sort : List peak → List peak) (c : Conf) (fmt_time : Nat → String)
    (fmt_amp : Int → String) (st : Tcp × State) (x : peak × Bool) : Option (Tcp × State) :=
  match step std_sort c st.2 x.1 with
  | none => none
  | some s1 => some (stream_sample fmt_time fmt_amp x.1 x.2 st.1, s1)

/-- The acquisition loop with its telemetry. -/
def acquire_tcp (std_sort : List peak → List peak) (c : Conf) (fmt_time : Nat → String)
    (fmt_amp : Int → String) : Tcp × State → List (peak × Bool) → Option (Tcp × State)
  | st, [] => some st
  | st, x :: xs =>
    match step_tcp std_sort c fmt_time fmt_amp st x with
    | none => none
    | some st1 => acquire_tcp std_sort c fmt_time fmt_amp st1 xs

/-! ## Specification-side definitions -/

/-- The alpha event `x` and the gamma event `y` fall into the cube cell
`(a, b, t)`: alpha bin `a`, gamma bin `b`, and signed separation
`y.time - x.time = t - interval`. -/
def pair_match (c : Conf) (a b t : Nat) (x y : peak) : Bool :=
  decide (alpha_bin c x.amp = a ∧ gamma_bin c y.amp = b ∧
    (y.time : Int) - (x.time : Int) = (t : Int) - (c.interval_uint : Int))

/-- Number of (alpha event, gamma event) pairs of `evs` that fall into the
cube cell `(a, b, t)`. -/
def pair_count (c : Conf) (evs : List peak) (a b t : Nat) : Nat :=
  ((evs.filter fun x => x.isalpha).map fun x =>
    (evs.filter fun y => !y.isalpha).countP (pair_match c a b t x)).sum

/-- The gamma-triggered scan body increments the cell `(a, b, t)` for the
backlog entry `p`. -/
def gamma_hits_cell (c : Conf) (timestamp : Nat) (amplitude : Int) (a b t : Nat) (p : peak) :
    Bool :=
  decide ((c.interval_uint + sub64 timestamp p.time) % 18446744073709551616 < two_interval c ∧
    (alpha_bin c p.amp < alpha_binN c ∧ gamma_bin c amplitude < gamma_binN c) ∧
    alpha_bin c p.amp = a ∧ gamma_bin c amplitude = b ∧
    (c.interval_uint + sub64 timestamp p.time) % 18446744073709551616 = t)

/-- The alpha-triggered scan body increments the cell `(a, b, t)` for the
backlog entry `p`. -/
def alpha_hits_cell (c : Conf) (timestamp : Nat) (amplitude : Int) (a b t : Nat) (p : peak) :
    Bool :=
  decide (sub64 c.interval_uint (sub64 timestamp p.time) ≤ c.interval_uint ∧
    (alpha_bin c amplitude < alpha_binN c ∧ gamma_bin c p.amp < gamma_binN c) ∧
    alpha_bin c amplitude = a ∧ gamma_bin c p.amp = b ∧
    sub64 c.interval_uint (sub64 timestamp p.time) = t)

/-- A backlog entry made from an event: `time` and `amp` copied, the flag left
at the zero of `emplace_back()`. -/
def backlog_entry (e : peak) : peak := ⟨e.time, e.amp, false⟩

/-- The alpha backlog after the time-ordered sequence `evs`: the alpha events
that no gamma event of `evs` has evicted. -/
def alpha_backlog_of (c : Conf) (evs : List peak) : List peak :=
  ((evs.filter fun x => x.isalpha).map backlog_entry).filter fun p =>
    (evs.filter fun y => !y.isalpha).all fun g => decide (g.time < p.time + c.interval_uint)

/-- The gamma backlog after the time-ordered sequence `evs`: the gamma events
that no alpha event of `evs` has evicted. -/
def gamma_backlog_of (c : Conf) (evs : List peak) : List peak :=
  ((evs.filter fun y => !y.isalpha).map backlog_entry).filter fun p =>
    (evs.filter fun x => x.isalpha).all fun x => decide (x.time ≤ p.time + c.interval_uint)

/-- All stores empty, nothing buffered. -/
def init_state : State :=
  { N_alpha := 0
    N_gamma := 0
    alpha_array := fun _ => 0
    gamma_array := fun _ => 0
    bins := fun _ _ _ => 0
    active_trig_alpha := []
    active_trig_gamma := []
    time_shift := [] }

/-! ## Sorting -/

theorem sortfun_le {x y : peak} (h : sortfun x y = true) : x.time ≤ y.time := by
  unfold sortfun at h
  split at h
  · omega
  · simp at h; omega

theorem sortfun_ge {x y : peak} (h : ¬ sortfun x y = true) : y.time ≤ x.time := by
  unfold sortfun at h
  split at h
  · omega
  · simp at h; omega

theorem sort_insert_perm (x : peak) (l : List peak) : (sort_insert x l).Perm (x :: l) := by
  induction l with
  | nil => simp [sort_insert]
  | cons y l ih =>
    unfold sort_insert
    split
    · exact List.Perm.refl _
    · exact (List.Perm.cons y ih).trans (List.Perm.swap x y l)

theorem foldl_sort_insert_perm (l : List peak) :
    ∀ acc : List peak, (l.foldl (fun acc x => sort_insert x acc) acc).Perm (acc ++ l) := by
  induction l with
  | nil => intro acc; simp
  | cons y l ih =>
    intro acc
    rw [List.foldl_cons]
    refine (ih (sort_insert y acc)).trans ?_
    refine ((sort_insert_perm y acc).append_right l).trans ?_
    exact List.perm_middle.symm

theorem insertion_sort_perm (l : List peak) : (insertion_sort l).Perm l := by
  have := foldl_sort_insert_perm l []
  simpa [insertion_sort] using this

/-- Time order of a list of events. -/
theorem sort_insert_sorted (x : peak) (l : List peak)
    (h : l.Pairwise (fun a b => a.time ≤ b.time)) :
    (sort_insert x l).Pairwise (fun a b => a.time ≤ b.time) := by
  induction l with
  | nil => simp [sort_insert]
  | cons y l ih =>
    unfold sort_insert
    rw [List.pairwise_cons] at h
    split
    · rename_i hxy
      have hle := sortfun_le hxy
      refine List.Pairwise.cons ?_ (List.Pairwise.cons h.1 h.2)
      intro z hz
      rcases List.mem_cons.mp hz with rfl | hz
      · exact hle
      · exact le_trans hle (h.1 z hz)
    · rename_i hxy
      have hge := sortfun_ge hxy
      refine List.Pairwise.cons ?_ (ih h.2)
      intro z hz
      rcases List.mem_cons.mp ((sort_insert_perm x l).mem_iff.mp hz) with rfl | hz
      · exact hge
      · exact h.1 z hz

theorem foldl_sort_insert_sorted (l : List peak) :
    ∀ acc : List peak, acc.Pairwise (fun a b => a.time ≤ b.time) →
      (l.foldl (fun acc x => sort_insert x acc) acc).Pairwise (fun a b => a.time ≤ b.time) := by
  induction l with
  | nil => intro acc h; exact h
  | cons y l ih =>
    intro acc h
    rw [List.foldl_cons]
    exact ih _ (sort_insert_sorted y acc h)

theorem insertion_sort_sorted (l : List peak) :
    (insertion_sort l).Pairwise (fun a b => a.time ≤ b.time) :=
  foldl_sort_insert_sorted l [] List.Pairwise.nil

theorem sort_eq_some {std_sort : List peak → List peak} {l l2 : List peak}
    (h : sort std_sort l = some l2) : l2 = std_sort l ∧ sortfun_valid l = true := by
  unfold sort at h
  split at h
  · rename_i hv
    exact ⟨(Option.some.inj h).symm, hv⟩
  · exact absurd h (by simp)

theorem sort_of_valid (std_sort : List peak → List peak) {l : List peak}
    (h : sortfun_valid l = true) : sort std_sort l = some (std_sort l) := by
  unfold sort
  rw [if_pos h]

/-- On a buffer that the comparator does not order the call is undefined,
whatever the library routine. -/
theorem sort_of_invalid (std_sort : List peak → List peak) {l : List peak}
    (h : sortfun_valid l = false) : sort std_sort l = none := by
  unfold sort
  rw [h]
  rfl

/-- A defined call of `std::sort` returns a rearrangement of the buffer. -/
theorem sort_perm {std_sort : List peak → List peak} (hsort : std_sort_contract std_sort)
    {l l2 : List peak} (h : sort std_sort l = some l2) : l2.Perm l := by
  obtain ⟨h1, h2⟩ := sort_eq_some h
  rw [h1]
  exact (hsort l h2).1

theorem mem_sort {std_sort : List peak → List peak} (hsort : std_sort_contract std_sort)
    {e : peak} {l l2 : List peak} (h : sort std_sort l = some l2) : e ∈ l2 ↔ e ∈ l :=
  (sort_perm hsort h).mem_iff

/-- A defined call of `std::sort` returns the buffer in time order. -/
theorem sort_sorted {std_sort : List peak → List peak} (hsort : std_sort_contract std_sort)
    {l l2 : List peak} (h : sort std_sort l = some l2) :
    l2.Pairwise (fun a b => a.time ≤ b.time) := by
  obtain ⟨h1, h2⟩ := sort_eq_some h
  rw [h1]
  refine (hsort l h2).2.imp ?_
  intro a b hab
  exact sortfun_ge (by rw [hab]; simp)

theorem sortfun_valid_iff (l : List peak) :
    sortfun_valid l = true ↔
      l.Pairwise fun a b => ¬ (sortfun a b = true ∧ sortfun b a = true) := by
  unfold sortfun_valid
  exact decide_eq_true_iff

theorem sortfun_valid_perm {l1 l2 : List peak} (h : l1.Perm l2)
    (hv : sortfun_valid l1 = true) : sortfun_valid l2 = true := by
  rw [sortfun_valid_iff] at hv ⊢
  refine (h.pairwise_iff ?_).mp hv
  intro a b hab hba
  exact hab ⟨hba.2, hba.1⟩

theorem sortfun_valid_sublist {l1 l2 : List peak} (h : l1.Sublist l2)
    (hv : sortfun_valid l2 = true) : sortfun_valid l1 = true := by
  rw [sortfun_valid_iff] at hv ⊢
  exact hv.sublist h

theorem sortfun_trans {a b c : peak} (h1 : sortfun a b = true) (h2 : sortfun b c = true) :
    sortfun a c = true := by
  unfold sortfun at h1 h2 ⊢
  by_cases e1 : a.time = b.time
  · by_cases e2 : b.time = c.time
    · rw [if_pos e1] at h1
      rw [if_pos (e1.trans e2)]
      exact h1
    · rw [if_neg e2] at h2
      have h3 := of_decide_eq_true h2
      rw [if_neg (by omega)]
      exact decide_eq_true (by omega)
  · rw [if_neg e1] at h1
    have h3 := of_decide_eq_true h1
    have h4 := sortfun_le h2
    rw [if_neg (by omega)]
    exact decide_eq_true (by omega)

theorem sort_insert_ordered (x : peak) (l : List peak)
    (hl : l.Pairwise fun a b => sortfun b a = false)
    (hv : ∀ y ∈ l, ¬ (sortfun x y = true ∧ sortfun y x = true)) :
    (sort_insert x l).Pairwise fun a b => sortfun b a = false := by
  induction l with
  | nil => simp [sort_insert]
  | cons y l ih =>
    unfold sort_insert
    rw [List.pairwise_cons] at hl
    split
    · rename_i hxy
      refine List.Pairwise.cons ?_ (List.Pairwise.cons hl.1 hl.2)
      intro z hz
      rcases List.mem_cons.mp hz with rfl | hz
      · have := hv z (List.mem_cons_self _ _)
        cases hzx : sortfun z x with
        | false => rfl
        | true => exact absurd ⟨hxy, hzx⟩ this
      · have hzy := hl.1 z hz
        cases hzx : sortfun z x with
        | false => rfl
        | true =>
          rw [sortfun_trans hzx hxy] at hzy
          exact absurd hzy (by simp)
    · rename_i hxy
      refine List.Pairwise.cons ?_ (ih hl.2 (fun z hz => hv z (List.mem_cons_of_mem _ hz)))
      intro z hz
      rcases List.mem_cons.mp ((sort_insert_perm x l).mem_iff.mp hz) with rfl | hz
      · simpa using hxy
      · exact hl.1 z hz

theorem foldl_sort_insert_ordered (l : List peak) :
    ∀ acc : List peak, (acc.Pairwise fun a b => sortfun b a = false) →
      (∀ x ∈ l, ∀ y ∈ acc, ¬ (sortfun x y = true ∧ sortfun y x = true)) →
      (l.Pairwise fun a b => ¬ (sortfun a b = true ∧ sortfun b a = true)) →
      (l.foldl (fun acc x => sort_insert x acc) acc).Pairwise fun a b => sortfun b a = false := by
  induction l with
  | nil => intro acc h _ _; exact h
  | cons x l ih =>
    intro acc hacc hcross hl
    rw [List.foldl_cons]
    rw [List.pairwise_cons] at hl
    refine ih _ (sort_insert_ordered x acc hacc (hcross x (List.mem_cons_self _ _))) ?_ hl.2
    intro z hz y hy
    rcases List.mem_cons.mp ((sort_insert_perm x acc).mem_iff.mp hy) with rfl | hy
    · intro hh
      exact hl.1 z hz ⟨hh.2, hh.1⟩
    · exact hcross z (List.mem_cons_of_mem _ hz) y hy

/-- The insertion sort is a routine of the kind `std_sort_contract` describes. -/
theorem insertion_sort_contract : std_sort_contract insertion_sort := by
  intro l hv
  refine ⟨insertion_sort_perm l, ?_⟩
  exact foldl_sort_insert_ordered l [] List.Pairwise.nil (by simp)
    ((sortfun_valid_iff l).mp hv)

/-! ## The release loop seen from the buffer -/

theorem window_release_append (c : Conf) (fuel : Nat) (buf : List peak) :
    (window_release c fuel buf).1 ++ (window_release c fuel buf).2 = buf := by
  induction fuel generalizing buf with
  | zero => simp [window_release]
  | succ n ih =>
    cases buf with
    | nil => simp [window_release]
    | cons front rest =>
      unfold window_release
      simp only
      split
      · simp [ih rest]
      · simp

theorem finalize_set_time_shift (c : Conf) (e : peak) (s : State) (t : List peak) :
    finalize c e { s with time_shift := t } = { finalize c e s with time_shift := t } := by
  unfold finalize coincidence push_active count_single
  by_cases h : e.isalpha <;> simp [h]

theorem finalize_time_shift (c : Conf) (e : peak) (s : State) :
    (finalize c e s).time_shift = s.time_shift := by
  unfold finalize coincidence push_active count_single
  by_cases h : e.isalpha <;> simp [h]

theorem engine_set_time_shift (c : Conf) (evs : List peak) (s : State) (t : List peak) :
    engine c { s with time_shift := t } evs = { engine c s evs with time_shift := t } := by
  induction evs generalizing s with
  | nil => rfl
  | cons e evs ih =>
    simp only [engine, List.foldl_cons] at ih ⊢
    rw [finalize_set_time_shift, ih]

theorem engine_time_shift (c : Conf) (evs : List peak) (s : State) :
    (engine c s evs).time_shift = s.time_shift := by
  induction evs generalizing s with
  | nil => rfl
  | cons e evs ih =>
    simp only [engine, List.foldl_cons] at ih ⊢
    rw [ih, finalize_time_shift]

theorem engine_append (c : Conf) (s : State) (l1 l2 : List peak) :
    engine c s (l1 ++ l2) = engine c (engine c s l1) l2 := by
  simp [engine, List.foldl_append]

theorem release_loop_eq (c : Conf) (fuel : Nat) (s : State) :
    release_loop c fuel s =
      { engine c s (window_release c fuel s.time_shift).1 with
        time_shift := (window_release c fuel s.time_shift).2 } := by
  induction fuel generalizing s with
  | zero => simp [release_loop, window_release, engine]
  | succ n ih =>
    unfold release_loop window_release
    cases hts : s.time_shift with
    | nil =>
      simp only [engine, List.foldl_nil]
      cases s; simp_all
    | cons front rest =>
      simp only
      split
      · rw [ih, finalize_set_time_shift]
        simp only [finalize_time_shift]
        rw [engine_set_time_shift]
        simp [engine]
      · simp only [engine, List.foldl_nil]
        cases s; simp_all

theorem window_step_eq_some {std_sort : List peak → List peak}
    {c : Conf} {buf : List peak} {x : peak} {r : List peak × List peak}
    (h : window_step std_sort c buf x = some r) :
    ∃ l, sort std_sort (buf ++ [x]) = some l ∧ r = window_release c l.length l := by
  unfold window_step at h
  split at h
  · exact absurd h (by simp)
  · rename_i l hl
    exact ⟨l, hl, (Option.some.inj h).symm⟩

theorem window_step_of_sort {std_sort : List peak → List peak}
    {c : Conf} {buf : List peak} {x : peak} {l : List peak}
    (h : sort std_sort (buf ++ [x]) = some l) :
    window_step std_sort c buf x = some (window_release c l.length l) := by
  unfold window_step
  rw [h]

theorem window_run_nil (std_sort : List peak → List peak)
    (c : Conf) (buf : List peak) : window_run std_sort c buf [] = some ([], buf) := rfl

theorem window_run_cons_eq_some {std_sort : List peak → List peak}
    {c : Conf} {buf : List peak} {x : peak} {xs : List peak}
    {r : List peak × List peak} (h : window_run std_sort c buf (x :: xs) = some r) :
    ∃ r1 r2, window_step std_sort c buf x = some r1 ∧ window_run std_sort c r1.2 xs = some r2 ∧
      r = (r1.1 ++ r2.1, r2.2) := by
  unfold window_run at h
  split at h
  · exact absurd h (by simp)
  · rename_i r1 h1
    split at h
    · exact absurd h (by simp)
    · rename_i r2 h2
      exact ⟨r1, r2, h1, h2, (Option.some.inj h).symm⟩

theorem window_run_cons_of {std_sort : List peak → List peak}
    {c : Conf} {buf : List peak} {x : peak} {xs : List peak}
    {r1 r2 : List peak × List peak} (h1 : window_step std_sort c buf x = some r1)
    (h2 : window_run std_sort c r1.2 xs = some r2) :
    window_run std_sort c buf (x :: xs) = some (r1.1 ++ r2.1, r2.2) := by
  have h : window_run std_sort c buf (x :: xs) =
      (match window_step std_sort c buf x with
      | none => none
      | some r =>
        match window_run std_sort c r.2 xs with
        | none => none
        | some r2 => some (r.1 ++ r2.1, r2.2)) := rfl
  rw [h, h1]
  simp only
  rw [h2]

theorem step_eq (std_sort : List peak → List peak) (c : Conf) (s : State) (x : peak) :
    step std_sort c s x =
      (window_step std_sort c s.time_shift x).map fun r =>
        { engine c s r.1 with time_shift := r.2 } := by
  unfold step window_step
  cases hs : sort std_sort (s.time_shift ++ [x]) with
  | none => rfl
  | some l =>
    simp only [Option.map_some']
    rw [release_loop_eq, engine_set_time_shift]

theorem acquire_cons (std_sort : List peak → List peak)
    (c : Conf) (s : State) (x : peak) (xs : List peak) :
    acquire std_sort c s (x :: xs) =
      (step std_sort c s x).bind fun s1 => acquire std_sort c s1 xs := by
  have h : acquire std_sort c s (x :: xs) =
      (match step std_sort c s x with
      | none => none
      | some s1 => acquire std_sort c s1 xs) := rfl
  rw [h]
  cases step std_sort c s x <;> rfl

/-- The acquisition loop is the engine run over the events the window
finalizes, and it leaves the buffer of the window. -/
theorem acquire_eq (std_sort : List peak → List peak) (c : Conf) (s : State) (xs : List peak) :
    acquire std_sort c s xs =
      (window_run std_sort c s.time_shift xs).map fun r =>
        { engine c s r.1 with time_shift := r.2 } := by
  induction xs generalizing s with
  | nil =>
    simp only [acquire, window_run, Option.map_some', engine, List.foldl_nil]
  | cons x xs ih =>
    rw [acquire_cons, step_eq]
    cases h1 : window_step std_sort c s.time_shift x with
    | none =>
      have h : window_run std_sort c s.time_shift (x :: xs) = none := by
        unfold window_run
        rw [h1]
      rw [h]
      rfl
    | some r1 =>
      simp only [Option.map_some', Option.some_bind]
      rw [ih]
      simp only
      cases h2 : window_run std_sort c r1.2 xs with
      | none =>
        have h : window_run std_sort c s.time_shift (x :: xs) = none := by
          unfold window_run
          rw [h1]
          simp only
          rw [h2]
        rw [h]
        rfl
      | some r2 =>
        rw [window_run_cons_of h1 h2]
        simp only [Option.map_some', engine_append]
        rw [engine_set_time_shift]

theorem acquire_of_window_run {std_sort : List peak → List peak}
    {c : Conf} {s : State} {xs : List peak} {r : List peak × List peak}
    (h : window_run std_sort c s.time_shift xs = some r) :
    acquire std_sort c s xs = some { engine c s r.1 with time_shift := r.2 } := by
  rw [acquire_eq, h]
  rfl

theorem acquire_of_window_run_pair {std_sort : List peak → List peak}
    {c : Conf} {s : State} {xs fin buf : List peak}
    (h : window_run std_sort c s.time_shift xs = some (fin, buf)) :
    acquire std_sort c s xs = some { engine c s fin with time_shift := buf } :=
  acquire_of_window_run h

theorem acquire_init_state {std_sort : List peak → List peak} {c : Conf} {xs fin buf : List peak}
    (h : window_run std_sort c [] xs = some (fin, buf)) :
    acquire std_sort c init_state xs = some { engine c init_state fin with time_shift := buf } :=
  acquire_of_window_run_pair (s := init_state) h

/-! ## Order of finalization -/

theorem window_step_append {std_sort : List peak → List peak}
    {c : Conf} {buf : List peak} {x : peak} {r : List peak × List peak}
    (h : window_step std_sort c buf x = some r) :
    sort std_sort (buf ++ [x]) = some (r.1 ++ r.2) := by
  obtain ⟨l, hl, hr⟩ := window_step_eq_some h
  rw [hr, window_release_append]
  exact hl

/-- Invariant of the window: as long as no event arrives below an event that
was finalized before, the finalized events followed by the buffer are in time
order. -/
theorem window_run_sorted_aux (std_sort : List peak → List peak)
    (hsort : std_sort_contract std_sort) (c : Conf) (arr : List peak) :
    ∀ (buf fin0 : List peak) (r : List peak × List peak),
      window_run std_sort c buf arr = some r →
      buf.Pairwise (fun a b => a.time ≤ b.time) →
      fin0.Pairwise (fun a b => a.time ≤ b.time) →
      (∀ f ∈ fin0, ∀ b ∈ buf, f.time ≤ b.time) →
      (∀ k (hk : k < arr.length), ∀ rk, window_run std_sort c buf (arr.take k) = some rk →
        ∀ e ∈ fin0 ++ rk.1, e.time ≤ arr[k].time) →
      (fin0 ++ r.1 ++ r.2).Pairwise (fun a b => a.time ≤ b.time) := by
  induction arr with
  | nil =>
    intro buf fin0 r hr hbuf hfin hfb _
    rw [window_run_nil] at hr
    rw [← Option.some.inj hr]
    simp only [List.append_nil]
    exact List.pairwise_append.mpr ⟨hfin, hbuf, hfb⟩
  | cons x xs ih =>
    intro buf fin0 r hr hbuf hfin hfb harr
    obtain ⟨r1, r2, h1, h2, hreq⟩ := window_run_cons_eq_some hr
    have hs := window_step_append h1
    have hx : ∀ f ∈ fin0, f.time ≤ x.time := by
      intro f hf
      have := harr 0 (by simp) ([], buf) (by simp [window_run]) f (by simpa using hf)
      simpa using this
    have hsort : (fin0 ++ (r1.1 ++ r1.2)).Pairwise (fun a b => a.time ≤ b.time) := by
      refine List.pairwise_append.mpr ⟨hfin, sort_sorted hsort hs, ?_⟩
      intro f hf b hb
      rcases List.mem_append.mp ((mem_sort hsort hs).mp hb) with hb | hb
      · exact hfb f hf b hb
      · rw [List.mem_singleton] at hb
        subst hb
        exact hx f hf
    rw [← List.append_assoc] at hsort
    have h3 := List.pairwise_append.mp hsort
    rw [hreq]
    simp only
    rw [← List.append_assoc]
    apply ih r1.2 (fin0 ++ r1.1) r2 h2 h3.2.1 h3.1 h3.2.2
    intro k hk rk hrk e he
    have := harr (k + 1) (by simpa using hk) (r1.1 ++ rk.1, rk.2)
      (by rw [List.take_succ_cons]; exact window_run_cons_of h1 hrk) e
      (by simpa [List.append_assoc] using he)
    simpa using this

/-- Every call of `std::sort` is defined when no two alpha events of the
buffer and of the arrivals to come carry the same tick. -/
theorem window_run_defined (std_sort : List peak → List peak)
    (hsort : std_sort_contract std_sort) (c : Conf) (arr : List peak) :
    ∀ buf : List peak, sortfun_valid (buf ++ arr) = true →
      ∃ r, window_run std_sort c buf arr = some r := by
  induction arr with
  | nil => intro buf _; exact ⟨([], buf), rfl⟩
  | cons x xs ih =>
    intro buf hv
    have hsub : (buf ++ [x]).Sublist (buf ++ x :: xs) := by
      refine List.Sublist.append (List.Sublist.refl buf) ?_
      exact List.Sublist.cons₂ x (List.nil_sublist xs)
    have hv1 := sortfun_valid_sublist hsub hv
    have hs := sort_of_valid std_sort hv1
    have h1 := window_step_of_sort (c := c) hs
    have happ := window_release_append c (std_sort (buf ++ [x])).length (std_sort (buf ++ [x]))
    have hperm : (std_sort (buf ++ [x]) ++ xs).Perm (buf ++ x :: xs) := by
      have := ((hsort _ hv1).1).append_right xs
      simpa using this
    have hv2 : sortfun_valid (std_sort (buf ++ [x]) ++ xs) = true :=
      sortfun_valid_perm hperm.symm hv
    have hsub2 : ((window_release c (std_sort (buf ++ [x])).length
        (std_sort (buf ++ [x]))).2 ++ xs).Sublist (std_sort (buf ++ [x]) ++ xs) := by
      refine List.Sublist.append ?_ (List.Sublist.refl xs)
      conv => rhs; rw [← happ]
      exact List.sublist_append_right _ _
    obtain ⟨r2, h2⟩ := ih _ (sortfun_valid_sublist hsub2 hv2)
    exact ⟨_, window_run_cons_of h1 h2⟩

/-! ## Routines that meet the contract agree where the comparator separates the events -/

theorem sorted_perm_unique {l1 : List peak} :
    ∀ {l2 : List peak}, l1.Perm l2 →
      (l1.Pairwise fun a b => sortfun b a = false) →
      (l2.Pairwise fun a b => sortfun b a = false) →
      (∀ a ∈ l1, ∀ b ∈ l1, sortfun a b = false → sortfun b a = false → a = b) →
      l1 = l2 := by
  induction l1 with
  | nil => intro l2 hp _ _ _; exact (List.nil_perm.mp hp).symm
  | cons a t1 ih =>
    intro l2 hp h1 h2 hsep
    cases l2 with
    | nil => exact absurd hp.length_eq (by simp)
    | cons b t2 =>
      rw [List.pairwise_cons] at h1 h2
      have hab : a = b := by
        have ha : a ∈ b :: t2 := hp.mem_iff.mp (List.mem_cons_self _ _)
        have hb : b ∈ a :: t1 := hp.mem_iff.mpr (List.mem_cons_self _ _)
        rcases List.mem_cons.mp ha with h | h
        · exact h
        · rcases List.mem_cons.mp hb with h3 | h3
          · exact h3.symm
          · exact hsep a (List.mem_cons_self _ _) b hb (h2.1 a h) (h1.1 b h3)
      subst hab
      rw [ih (List.Perm.cons_inv hp) h1.2 h2.2
        (fun x hx y hy => hsep x (List.mem_cons_of_mem _ hx) y (List.mem_cons_of_mem _ hy))]

/-- On a buffer that `sortfun` orders and in which it separates every two
different events, the routines that meet the contract of `std::sort` all
return the same buffer. -/
theorem std_sort_unique (f g : List peak → List peak)
    (hf : std_sort_contract f) (hg : std_sort_contract g) (l : List peak)
    (hv : sortfun_valid l = true)
    (hsep : l.Pairwise fun a b => a = b ∨ sortfun a b ≠ sortfun b a) :
    f l = g l := by
  obtain ⟨pf, sf⟩ := hf l hv
  obtain ⟨pg, sg⟩ := hg l hv
  have hall : ∀ a ∈ l, ∀ b ∈ l, a = b ∨ sortfun a b ≠ sortfun b a := by
    have hsymm : ∀ x y : peak, (x = y ∨ sortfun x y ≠ sortfun y x) →
        (y = x ∨ sortfun y x ≠ sortfun x y) := by
      intro x y hxy
      rcases hxy with h | h
      · exact Or.inl h.symm
      · exact Or.inr (fun e => h e.symm)
    exact List.Pairwise.forall_of_forall (fun {x y} h => hsymm x y h)
      (fun x _ => Or.inl rfl) hsep
  refine sorted_perm_unique (pf.trans pg.symm) sf sg ?_
  intro a ha b hb h1 h2
  rcases hall a (pf.mem_iff.mp ha) b (pf.mem_iff.mp hb) with h | h
  · exact h
  · exact absurd (h1.trans h2.symm) h

/-- On a stream that `sortfun` orders and in which it separates every two
different events, the window does the same whichever routine with the
contract of `std::sort` sorts the buffer. -/
theorem window_run_unique (f g : List peak → List peak)
    (hf : std_sort_contract f) (hg : std_sort_contract g) (c : Conf) (arr : List peak) :
    ∀ buf : List peak, sortfun_valid (buf ++ arr) = true →
      ((buf ++ arr).Pairwise fun a b => a = b ∨ sortfun a b ≠ sortfun b a) →
      window_run f c buf arr = window_run g c buf arr := by
  induction arr with
  | nil => intro buf _ _; rfl
  | cons x xs ih =>
    intro buf hv hsep
    have hsub : (buf ++ [x]).Sublist (buf ++ x :: xs) := by
      refine List.Sublist.append (List.Sublist.refl buf) ?_
      exact List.Sublist.cons₂ x (List.nil_sublist xs)
    have hv1 := sortfun_valid_sublist hsub hv
    have hfg : f (buf ++ [x]) = g (buf ++ [x]) :=
      std_sort_unique f g hf hg _ hv1 (hsep.sublist hsub)
    have h1f := window_step_of_sort (c := c) (sort_of_valid f hv1)
    have h1g := window_step_of_sort (c := c) (sort_of_valid g hv1)
    rw [← hfg] at h1g
    have happ := window_release_append c (f (buf ++ [x])).length (f (buf ++ [x]))
    have hperm : (f (buf ++ [x]) ++ xs).Perm (buf ++ x :: xs) := by
      have := ((hf _ hv1).1).append_right xs
      simpa using this
    have hsub2 : ((window_release c (f (buf ++ [x])).length (f (buf ++ [x]))).2 ++ xs).Sublist
        (f (buf ++ [x]) ++ xs) := by
      refine List.Sublist.append ?_ (List.Sublist.refl xs)
      conv => rhs; rw [← happ]
      exact List.sublist_append_right _ _
    have hv2 := sortfun_valid_sublist hsub2 (sortfun_valid_perm hperm.symm hv)
    have hsep2 : (f (buf ++ [x]) ++ xs).Pairwise
        fun a b => a = b ∨ sortfun a b ≠ sortfun b a := by
      refine (hperm.pairwise_iff ?_).mpr hsep
      intro a b hab
      rcases hab with h | h
      · exact Or.inl h.symm
      · exact Or.inr (fun e => h e.symm)
    have hrec := ih _ hv2 (hsep2.sublist hsub2)
    unfold window_run
    rw [h1f, h1g]
    simp only
    rw [hrec]

/-- The acquisition loop likewise. -/
theorem acquire_unique (f g : List peak → List peak)
    (hf : std_sort_contract f) (hg : std_sort_contract g) (c : Conf) (s : State)
    (samples : List peak) (hv : sortfun_valid (s.time_shift ++ samples) = true)
    (hsep : (s.time_shift ++ samples).Pairwise fun a b => a = b ∨ sortfun a b ≠ sortfun b a) :
    acquire f c s samples = acquire g c s samples := by
  rw [acquire_eq, acquire_eq, window_run_unique f g hf hg c samples s.time_shift hv hsep]

/-! ## The scans as list operations -/

theorem scan_alpha_keep (c : Conf) (ts : Nat) (amp : Int) :
    ∀ (fuel j : Nat) (q : List peak) (bins : Nat → Nat → Nat → Nat),
      (∀ p ∈ q.drop j, ¬ ts ≥ (p.time + c.interval_uint) % 18446744073709551616) →
      q.length - j ≤ fuel →
      scan_alpha c ts amp fuel j q bins =
        (q, (q.drop j).foldl (fun b p => gamma_hit c ts amp p b) bins) := by
  intro fuel
  induction fuel with
  | zero =>
    intro j q bins _ hlen
    have : q.drop j = [] := List.drop_eq_nil_of_le (by omega)
    simp [scan_alpha, this]
  | succ n ih =>
    intro j q bins hkeep hlen
    unfold scan_alpha
    by_cases hj : j < q.length
    · have hd : q.drop j = q[j] :: q.drop (j + 1) := List.drop_eq_getElem_cons hj
      rw [List.getElem?_eq_getElem hj]
      simp only
      have hk := hkeep q[j] (by rw [hd]; exact List.mem_cons_self _ _)
      rw [if_neg hk, ih (j + 1) q _ (fun p hp => hkeep p (by rw [hd]; exact List.mem_cons_of_mem _ hp))
        (by omega), hd]
      rfl
    · have hnone : q[j]? = none := List.getElem?_eq_none (by omega)
      have : q.drop j = [] := List.drop_eq_nil_of_le (by omega)
      rw [hnone]
      simp [this]

theorem scan_alpha_eq (c : Conf) (ts : Nat) (amp : Int) :
    ∀ (q : List peak) (fuel : Nat) (bins : Nat → Nat → Nat → Nat),
      q.length ≤ fuel →
      (∀ p ∈ q.dropWhile (fun p => decide (ts ≥ (p.time + c.interval_uint) % 18446744073709551616)),
        ¬ ts ≥ (p.time + c.interval_uint) % 18446744073709551616) →
      scan_alpha c ts amp fuel 0 q bins =
        (q.dropWhile (fun p => decide (ts ≥ (p.time + c.interval_uint) % 18446744073709551616)),
          (q.dropWhile (fun p => decide (ts ≥ (p.time + c.interval_uint) % 18446744073709551616))).foldl
            (fun b p => gamma_hit c ts amp p b) bins) := by
  intro q
  induction q with
  | nil =>
    intro fuel bins _ _
    cases fuel <;> simp [scan_alpha]
  | cons p rest ih =>
    intro fuel bins hlen hkeep
    cases fuel with
    | zero => simp at hlen
    | succ n =>
      unfold scan_alpha
      simp only [List.getElem?_cons_zero, List.tail_cons]
      by_cases hp : ts ≥ (p.time + c.interval_uint) % 18446744073709551616
      · rw [if_pos hp]
        have hdw : (p :: rest).dropWhile
            (fun p => decide (ts ≥ (p.time + c.interval_uint) % 18446744073709551616))
            = rest.dropWhile
              (fun p => decide (ts ≥ (p.time + c.interval_uint) % 18446744073709551616)) := by
          simp [List.dropWhile_cons, hp]
        rw [hdw] at hkeep ⊢
        exact ih n bins (by simpa using hlen) hkeep
      · rw [if_neg hp]
        have hdw : (p :: rest).dropWhile
            (fun p => decide (ts ≥ (p.time + c.interval_uint) % 18446744073709551616))
            = p :: rest := by
          simp [List.dropWhile_cons, hp]
        rw [hdw] at hkeep ⊢
        rw [scan_alpha_keep c ts amp n 1 (p :: rest) _
          (fun x hx => hkeep x (List.mem_cons_of_mem _ (by simpa using hx)))
          (by simp at hlen ⊢; omega)]
        simp

theorem scan_gamma_keep (c : Conf) (ts : Nat) (amp : Int) :
    ∀ (fuel j : Nat) (q : List peak) (bins : Nat → Nat → Nat → Nat),
      (∀ p ∈ q.drop j, ¬ ts > (p.time + c.interval_uint) % 18446744073709551616) →
      q.length - j ≤ fuel →
      scan_gamma c ts amp fuel j q bins =
        (q, (q.drop j).foldl (fun b p => alpha_hit c ts amp p b) bins) := by
  intro fuel
  induction fuel with
  | zero =>
    intro j q bins _ hlen
    have : q.drop j = [] := List.drop_eq_nil_of_le (by omega)
    simp [scan_gamma, this]
  | succ n ih =>
    intro j q bins hkeep hlen
    unfold scan_gamma
    by_cases hj : j < q.length
    · have hd : q.drop j = q[j] :: q.drop (j + 1) := List.drop_eq_getElem_cons hj
      rw [List.getElem?_eq_getElem hj]
      simp only
      have hk := hkeep q[j] (by rw [hd]; exact List.mem_cons_self _ _)
      rw [if_neg hk, ih (j + 1) q _ (fun p hp => hkeep p (by rw [hd]; exact List.mem_cons_of_mem _ hp))
        (by omega), hd]
      rfl
    · have hnone : q[j]? = none := List.getElem?_eq_none (by omega)
      have : q.drop j = [] := List.drop_eq_nil_of_le (by omega)
      rw [hnone]
      simp [this]

theorem scan_gamma_eq (c : Conf) (ts : Nat) (amp : Int) :
    ∀ (q : List peak) (fuel : Nat) (bins : Nat → Nat → Nat → Nat),
      q.length ≤ fuel →
      (∀ p ∈ q.dropWhile (fun p => decide (ts > (p.time + c.interval_uint) % 18446744073709551616)),
        ¬ ts > (p.time + c.interval_uint) % 18446744073709551616) →
      scan_gamma c ts amp fuel 0 q bins =
        (q.dropWhile (fun p => decide (ts > (p.time + c.interval_uint) % 18446744073709551616)),
          (q.dropWhile (fun p => decide (ts > (p.time + c.interval_uint) % 18446744073709551616))).foldl
            (fun b p => alpha_hit c ts amp p b) bins) := by
  intro q
  induction q with
  | nil =>
    intro fuel bins _ _
    cases fuel <;> simp [scan_gamma]
  | cons p rest ih =>
    intro fuel bins hlen hkeep
    cases fuel with
    | zero => simp at hlen
    | succ n =>
      unfold scan_gamma
      simp only [List.getElem?_cons_zero, List.tail_cons]
      by_cases hp : ts > (p.time + c.interval_uint) % 18446744073709551616
      · rw [if_pos hp]
        have hdw : (p :: rest).dropWhile
            (fun p => decide (ts > (p.time + c.interval_uint) % 18446744073709551616))
            = rest.dropWhile
              (fun p => decide (ts > (p.time + c.interval_uint) % 18446744073709551616)) := by
          simp [List.dropWhile_cons, hp]
        rw [hdw] at hkeep ⊢
        exact ih n bins (by simpa using hlen) hkeep
      · rw [if_neg hp]
        have hdw : (p :: rest).dropWhile
            (fun p => decide (ts > (p.time + c.interval_uint) % 18446744073709551616))
            = p :: rest := by
          simp [List.dropWhile_cons, hp]
        rw [hdw] at hkeep ⊢
        rw [scan_gamma_keep c ts amp n 1 (p :: rest) _
          (fun x hx => hkeep x (List.mem_cons_of_mem _ (by simpa using hx)))
          (by simp at hlen ⊢; omega)]
        simp

theorem dropWhile_evict_alpha (c : Conf) (ts : Nat) (q : List peak)
    (hs : q.Pairwise (fun a b => a.time ≤ b.time))
    (hw : ∀ p ∈ q, p.time + c.interval_uint < 18446744073709551616) :
    q.dropWhile (fun p => decide (ts ≥ (p.time + c.interval_uint) % 18446744073709551616))
      = q.filter (fun p => decide (ts < p.time + c.interval_uint)) := by
  induction q with
  | nil => rfl
  | cons p rest ih =>
    rw [List.pairwise_cons] at hs
    have hp := hw p (List.mem_cons_self _ _)
    have hmod : (p.time + c.interval_uint) % 18446744073709551616 = p.time + c.interval_uint :=
      Nat.mod_eq_of_lt hp
    by_cases h : ts ≥ p.time + c.interval_uint
    · have h2 : ¬ ts < p.time + c.interval_uint := by omega
      simp only [List.dropWhile_cons, hmod, h, decide_True, if_true, List.filter_cons, h2,
        decide_False]
      exact ih hs.2 (fun x hx => hw x (List.mem_cons_of_mem _ hx))
    · have h2 : ts < p.time + c.interval_uint := by omega
      simp only [List.dropWhile_cons, hmod, h, decide_False, List.filter_cons, h2,
        decide_True, if_true]
      simp only [Bool.false_eq_true, ↓reduceIte, List.cons.injEq, true_and]
      symm
      rw [List.filter_eq_self]
      intro x hx
      have := hs.1 x hx
      simp only [decide_eq_true_eq]
      omega

theorem dropWhile_evict_gamma (c : Conf) (ts : Nat) (q : List peak)
    (hs : q.Pairwise (fun a b => a.time ≤ b.time))
    (hw : ∀ p ∈ q, p.time + c.interval_uint < 18446744073709551616) :
    q.dropWhile (fun p => decide (ts > (p.time + c.interval_uint) % 18446744073709551616))
      = q.filter (fun p => decide (ts ≤ p.time + c.interval_uint)) := by
  induction q with
  | nil => rfl
  | cons p rest ih =>
    rw [List.pairwise_cons] at hs
    have hp := hw p (List.mem_cons_self _ _)
    have hmod : (p.time + c.interval_uint) % 18446744073709551616 = p.time + c.interval_uint :=
      Nat.mod_eq_of_lt hp
    by_cases h : ts > p.time + c.interval_uint
    · have h2 : ¬ ts ≤ p.time + c.interval_uint := by omega
      simp only [List.dropWhile_cons, hmod, h, decide_True, if_true, List.filter_cons, h2,
        decide_False]
      exact ih hs.2 (fun x hx => hw x (List.mem_cons_of_mem _ hx))
    · have h2 : ts ≤ p.time + c.interval_uint := by omega
      simp only [List.dropWhile_cons, hmod, h, decide_False, List.filter_cons, h2,
        decide_True, if_true]
      simp only [Bool.false_eq_true, ↓reduceIte, List.cons.injEq, true_and]
      symm
      rw [List.filter_eq_self]
      intro x hx
      have := hs.1 x hx
      simp only [decide_eq_true_eq]
      omega

/-- The gamma-triggered scan on a backlog in time order. -/
theorem scan_alpha_sorted (c : Conf) (ts : Nat) (amp : Int) (q : List peak)
    (bins : Nat → Nat → Nat → Nat)
    (hs : q.Pairwise (fun a b => a.time ≤ b.time))
    (hw : ∀ p ∈ q, p.time + c.interval_uint < 18446744073709551616) :
    scan_alpha c ts amp q.length 0 q bins =
      (q.filter (fun p => decide (ts < p.time + c.interval_uint)),
        (q.filter (fun p => decide (ts < p.time + c.interval_uint))).foldl
          (fun b p => gamma_hit c ts amp p b) bins) := by
  have hd := dropWhile_evict_alpha c ts q hs hw
  rw [scan_alpha_eq c ts amp q q.length bins (le_refl _), hd]
  rw [hd]
  intro p hp
  have h1 := List.mem_filter.mp hp
  have h2 := hw p h1.1
  rw [Nat.mod_eq_of_lt h2]
  have := h1.2
  simp only [decide_eq_true_eq] at this
  omega

/-- The alpha-triggered scan on a backlog in time order. -/
theorem scan_gamma_sorted (c : Conf) (ts : Nat) (amp : Int) (q : List peak)
    (bins : Nat → Nat → Nat → Nat)
    (hs : q.Pairwise (fun a b => a.time ≤ b.time))
    (hw : ∀ p ∈ q, p.time + c.interval_uint < 18446744073709551616) :
    scan_gamma c ts amp q.length 0 q bins =
      (q.filter (fun p => decide (ts ≤ p.time + c.interval_uint)),
        (q.filter (fun p => decide (ts ≤ p.time + c.interval_uint))).foldl
          (fun b p => alpha_hit c ts amp p b) bins) := by
  have hd := dropWhile_evict_gamma c ts q hs hw
  rw [scan_gamma_eq c ts amp q q.length bins (le_refl _), hd]
  rw [hd]
  intro p hp
  have h1 := List.mem_filter.mp hp
  have h2 := hw p h1.1
  rw [Nat.mod_eq_of_lt h2]
  have := h1.2
  simp only [decide_eq_true_eq] at this
  omega

/-! ## Cell values after a scan -/

theorem gamma_hit_cell (c : Conf) (ts : Nat) (amp : Int) (p : peak)
    (bins : Nat → Nat → Nat → Nat) (a b t : Nat) :
    gamma_hit c ts amp p bins a b t =
      if gamma_hits_cell c ts amp a b t p then (bins a b t + 1) % 4294967296 else bins a b t := by
  unfold gamma_hit gamma_hits_cell inc3
  by_cases h1 : (c.interval_uint + sub64 ts p.time) % 18446744073709551616 < two_interval c
  · by_cases h2 : alpha_bin c p.amp < alpha_binN c ∧ gamma_bin c amp < gamma_binN c
    · by_cases h3 : a = alpha_bin c p.amp ∧ b = gamma_bin c amp ∧
          t = (c.interval_uint + sub64 ts p.time) % 18446744073709551616
      · obtain ⟨rfl, rfl, rfl⟩ := h3
        simp [h1, h2]
      · have h4 : ¬ (alpha_bin c p.amp = a ∧ gamma_bin c amp = b ∧
          (c.interval_uint + sub64 ts p.time) % 18446744073709551616 = t) := by
          rintro ⟨rfl, rfl, rfl⟩
          exact h3 ⟨rfl, rfl, rfl⟩
        simp [h1, h2, h3, h4]
    · simp [h1, h2]
  · simp [h1]

theorem alpha_hit_cell (c : Conf) (ts : Nat) (amp : Int) (p : peak)
    (bins : Nat → Nat → Nat → Nat) (a b t : Nat) :
    alpha_hit c ts amp p bins a b t =
      if alpha_hits_cell c ts amp a b t p then (bins a b t + 1) % 4294967296 else bins a b t := by
  unfold alpha_hit alpha_hits_cell inc3
  by_cases h1 : sub64 c.interval_uint (sub64 ts p.time) ≤ c.interval_uint
  · by_cases h2 : alpha_bin c amp < alpha_binN c ∧ gamma_bin c p.amp < gamma_binN c
    · by_cases h3 : a = alpha_bin c amp ∧ b = gamma_bin c p.amp ∧
          t = sub64 c.interval_uint (sub64 ts p.time)
      · obtain ⟨rfl, rfl, rfl⟩ := h3
        simp [h1, h2]
      · have h4 : ¬ (alpha_bin c amp = a ∧ gamma_bin c p.amp = b ∧
          sub64 c.interval_uint (sub64 ts p.time) = t) := by
          rintro ⟨rfl, rfl, rfl⟩
          exact h3 ⟨rfl, rfl, rfl⟩
        simp [h1, h2, h3, h4]
    · simp [h1, h2]
  · simp [h1]

theorem foldl_gamma_hit_cell (c : Conf) (ts : Nat) (amp : Int) (a b t : Nat) :
    ∀ (l : List peak) (bins : Nat → Nat → Nat → Nat), bins a b t < 4294967296 →
      (l.foldl (fun bn p => gamma_hit c ts amp p bn) bins) a b t =
        (bins a b t + l.countP (gamma_hits_cell c ts amp a b t)) % 4294967296 := by
  intro l
  induction l with
  | nil => intro bins h; simp [Nat.mod_eq_of_lt h]
  | cons p rest ih =>
    intro bins h
    rw [List.foldl_cons, List.countP_cons]
    have hc := gamma_hit_cell c ts amp p bins a b t
    by_cases hp : gamma_hits_cell c ts amp a b t p = true
    · rw [if_pos hp] at hc
      rw [ih _ (by rw [hc]; exact Nat.mod_lt _ (by norm_num)), hc, if_pos hp]
      omega
    · rw [if_neg hp] at hc
      rw [ih _ (by rw [hc]; exact h), hc, if_neg hp]
      rfl

theorem foldl_alpha_hit_cell (c : Conf) (ts : Nat) (amp : Int) (a b t : Nat) :
    ∀ (l : List peak) (bins : Nat → Nat → Nat → Nat), bins a b t < 4294967296 →
      (l.foldl (fun bn p => alpha_hit c ts amp p bn) bins) a b t =
        (bins a b t + l.countP (alpha_hits_cell c ts amp a b t)) % 4294967296 := by
  intro l
  induction l with
  | nil => intro bins h; simp [Nat.mod_eq_of_lt h]
  | cons p rest ih =>
    intro bins h
    rw [List.foldl_cons, List.countP_cons]
    have hc := alpha_hit_cell c ts amp p bins a b t
    by_cases hp : alpha_hits_cell c ts amp a b t p = true
    · rw [if_pos hp] at hc
      rw [ih _ (by rw [hc]; exact Nat.mod_lt _ (by norm_num)), hc, if_pos hp]
      omega
    · rw [if_neg hp] at hc
      rw [ih _ (by rw [hc]; exact h), hc, if_neg hp]
      rfl

/-! ## Counting pairs -/

theorem sum_map_countP_snoc (P : peak → peak → Bool) (g : List peak) (e : peak) :
    ∀ l : List peak, (l.map fun x => (g ++ [e]).countP (P x)).sum =
      (l.map fun x => g.countP (P x)).sum + l.countP (fun x => P x e) := by
  intro l
  induction l with
  | nil => simp
  | cons x rest ih =>
    rw [List.map_cons, List.sum_cons, ih, List.map_cons, List.sum_cons, List.countP_cons,
      List.countP_append, List.countP_cons, List.countP_nil]
    by_cases h : P x e = true
    · rw [if_pos h]; omega
    · rw [if_neg h]; omega

theorem pair_count_snoc_gamma (c : Conf) (evs : List peak) (e : peak) (a b t : Nat)
    (he : e.isalpha = false) :
    pair_count c (evs ++ [e]) a b t =
      pair_count c evs a b t +
        (evs.filter fun x => x.isalpha).countP (fun x => pair_match c a b t x e) := by
  unfold pair_count
  simp only [List.filter_append, List.filter_cons, List.filter_nil, he, Bool.not_false,
    if_true, Bool.false_eq_true, if_false, List.append_nil]
  exact sum_map_countP_snoc (pair_match c a b t) _ e _

theorem pair_count_snoc_alpha (c : Conf) (evs : List peak) (e : peak) (a b t : Nat)
    (he : e.isalpha = true) :
    pair_count c (evs ++ [e]) a b t =
      pair_count c evs a b t +
        (evs.filter fun y => !y.isalpha).countP (pair_match c a b t e) := by
  unfold pair_count
  simp only [List.filter_append, List.filter_cons, List.filter_nil, he, Bool.not_true,
    if_true, Bool.false_eq_true, if_false, List.append_nil, List.map_append, List.map_cons,
    List.map_nil, List.sum_append, List.sum_cons, List.sum_nil, Nat.add_zero]

/-! ## Finalization, field by field -/

theorem finalize_gamma_alpha_backlog (c : Conf) (e : peak) (s : State) (he : e.isalpha = false) :
    (finalize c e s).active_trig_alpha =
      (scan_alpha c e.time e.amp s.active_trig_alpha.length 0 s.active_trig_alpha s.bins).1 := by
  simp [finalize, coincidence, push_active, count_single, he]

theorem finalize_gamma_bins (c : Conf) (e : peak) (s : State) (he : e.isalpha = false) :
    (finalize c e s).bins =
      (scan_alpha c e.time e.amp s.active_trig_alpha.length 0 s.active_trig_alpha s.bins).2 := by
  simp [finalize, coincidence, push_active, count_single, he]

theorem finalize_gamma_gamma_backlog (c : Conf) (e : peak) (s : State) (he : e.isalpha = false) :
    (finalize c e s).active_trig_gamma = s.active_trig_gamma ++ [backlog_entry e] := by
  simp [finalize, coincidence, push_active, count_single, he, backlog_entry]

theorem finalize_alpha_gamma_backlog (c : Conf) (e : peak) (s : State) (he : e.isalpha = true) :
    (finalize c e s).active_trig_gamma =
      (scan_gamma c e.time e.amp s.active_trig_gamma.length 0 s.active_trig_gamma s.bins).1 := by
  simp [finalize, coincidence, push_active, count_single, he]

theorem finalize_alpha_bins (c : Conf) (e : peak) (s : State) (he : e.isalpha = true) :
    (finalize c e s).bins =
      (scan_gamma c e.time e.amp s.active_trig_gamma.length 0 s.active_trig_gamma s.bins).2 := by
  simp [finalize, coincidence, push_active, count_single, he]

theorem finalize_alpha_alpha_backlog (c : Conf) (e : peak) (s : State) (he : e.isalpha = true) :
    (finalize c e s).active_trig_alpha = s.active_trig_alpha ++ [backlog_entry e] := by
  simp [finalize, coincidence, push_active, count_single, he, backlog_entry]

theorem engine_snoc (c : Conf) (s : State) (evs : List peak) (e : peak) :
    engine c s (evs ++ [e]) = finalize c e (engine c s evs) := by
  simp [engine, List.foldl_append]

/-! ## Hits against pairs -/

theorem two_interval_eq (c : Conf) (h : 2 * c.interval_uint < 4294967296) :
    two_interval c = 2 * c.interval_uint := Nat.mod_eq_of_lt h

theorem gamma_hits_cell_iff (c : Conf) (x e : peak) (a b t : Nat)
    (h2I : 2 * c.interval_uint < 4294967296)
    (hxe : x.time ≤ e.time) (hw : e.time + c.interval_uint < 18446744073709551616)
    (ha : a < alpha_binN c) (hb : b < gamma_binN c) (ht : t < 2 * c.interval_uint) :
    gamma_hits_cell c e.time e.amp a b t (backlog_entry x) = true ↔
      pair_match c a b t x e = true := by
  unfold gamma_hits_cell pair_match backlog_entry sub64
  rw [two_interval_eq c h2I]
  simp only [decide_eq_true_eq]
  have hsub : (e.time + 18446744073709551616 - x.time) % 18446744073709551616
      = e.time - x.time := by omega
  rw [hsub]
  have hmod : (c.interval_uint + (e.time - x.time)) % 18446744073709551616
      = c.interval_uint + (e.time - x.time) := by omega
  rw [hmod]
  constructor
  · rintro ⟨_, _, h3, h4, h5⟩
    exact ⟨h3, h4, by omega⟩
  · rintro ⟨h3, h4, h5⟩
    exact ⟨by omega, ⟨by rw [h3]; exact ha, by rw [h4]; exact hb⟩, h3, h4, by omega⟩

theorem alpha_hits_cell_iff (c : Conf) (y e : peak) (a b t : Nat)
    (hye : y.time ≤ e.time) (hw : e.time + c.interval_uint < 18446744073709551616)
    (hle : e.time ≤ y.time + c.interval_uint)
    (ha : a < alpha_binN c) (hb : b < gamma_binN c) :
    alpha_hits_cell c e.time e.amp a b t (backlog_entry y) = true ↔
      pair_match c a b t e y = true := by
  unfold alpha_hits_cell pair_match backlog_entry sub64
  simp only [decide_eq_true_eq]
  have hsub : (e.time + 18446744073709551616 - y.time) % 18446744073709551616
      = e.time - y.time := by omega
  rw [hsub]
  have hmod : (c.interval_uint + 18446744073709551616 - (e.time - y.time)) % 18446744073709551616
      = c.interval_uint - (e.time - y.time) := by omega
  rw [hmod]
  constructor
  · rintro ⟨_, _, h3, h4, h5⟩
    exact ⟨h3, h4, by omega⟩
  · rintro ⟨h3, h4, h5⟩
    exact ⟨by omega, ⟨by rw [h3]; exact ha, by rw [h4]; exact hb⟩, h3, h4, by omega⟩

theorem count_gamma_hits (c : Conf) (evs : List peak) (e : peak) (a b t : Nat)
    (h2I : 2 * c.interval_uint < 4294967296)
    (hle : ∀ x ∈ evs, x.time ≤ e.time) (hw : e.time + c.interval_uint < 18446744073709551616)
    (ha : a < alpha_binN c) (hb : b < gamma_binN c) (ht : t < 2 * c.interval_uint) :
    List.countP (gamma_hits_cell c e.time e.amp a b t)
      (((((evs.filter fun x => x.isalpha).map backlog_entry).filter fun p =>
          (evs.filter fun y => !y.isalpha).all fun g =>
            decide (g.time < p.time + c.interval_uint)).filter fun p =>
          decide (e.time < p.time + c.interval_uint))) =
      List.countP (fun x => pair_match c a b t x e) (evs.filter fun x => x.isalpha) := by
  rw [List.countP_filter, List.countP_filter, List.countP_map]
  apply List.countP_congr
  intro x hx
  have hxe := hle x (List.mem_filter.mp hx).1
  have hiff := gamma_hits_cell_iff c x e a b t h2I hxe hw ha hb ht
  simp only [Function.comp, Bool.and_eq_true, decide_eq_true_eq, List.all_eq_true]
  constructor
  · rintro ⟨⟨h1, _⟩, _⟩
    exact hiff.mp h1
  · intro h
    have hpm := h
    unfold pair_match at hpm
    simp only [decide_eq_true_eq] at hpm
    have hlt : e.time < x.time + c.interval_uint := by omega
    refine ⟨⟨hiff.mpr h, hlt⟩, ?_⟩
    intro g hg
    have := hle g (List.mem_filter.mp hg).1
    show g.time < x.time + c.interval_uint
    omega

theorem count_alpha_hits (c : Conf) (evs : List peak) (e : peak) (a b t : Nat)
    (hle : ∀ x ∈ evs, x.time ≤ e.time) (hw : e.time + c.interval_uint < 18446744073709551616)
    (ha : a < alpha_binN c) (hb : b < gamma_binN c) :
    List.countP (alpha_hits_cell c e.time e.amp a b t)
      (((((evs.filter fun y => !y.isalpha).map backlog_entry).filter fun p =>
          (evs.filter fun x => x.isalpha).all fun x =>
            decide (x.time ≤ p.time + c.interval_uint)).filter fun p =>
          decide (e.time ≤ p.time + c.interval_uint))) =
      List.countP (pair_match c a b t e) (evs.filter fun y => !y.isalpha) := by
  rw [List.countP_filter, List.countP_filter, List.countP_map]
  apply List.countP_congr
  intro y hy
  have hye := hle y (List.mem_filter.mp hy).1
  simp only [Function.comp, Bool.and_eq_true, decide_eq_true_eq, List.all_eq_true]
  constructor
  · rintro ⟨⟨h1, h2⟩, _⟩
    exact (alpha_hits_cell_iff c y e a b t hye hw h2 ha hb).mp h1
  · intro h
    have hpm := h
    unfold pair_match at hpm
    simp only [decide_eq_true_eq] at hpm
    have hlt : e.time ≤ y.time + c.interval_uint := by omega
    refine ⟨⟨(alpha_hits_cell_iff c y e a b t hye hw hlt ha hb).mpr h, hlt⟩, ?_⟩
    intro x hx
    have := hle x (List.mem_filter.mp hx).1
    show x.time ≤ y.time + c.interval_uint
    omega

/-! ## The backlogs along a time-ordered sequence -/

theorem alpha_backlog_snoc_gamma (c : Conf) (evs : List peak) (e : peak)
    (he : e.isalpha = false) :
    alpha_backlog_of c (evs ++ [e]) =
      (alpha_backlog_of c evs).filter (fun p => decide (e.time < p.time + c.interval_uint)) := by
  unfold alpha_backlog_of
  simp only [List.filter_append, List.filter_cons, List.filter_nil, he, Bool.not_false,
    if_true, Bool.false_eq_true, if_false, List.append_nil, List.filter_filter,
    List.all_append, List.all_cons, List.all_nil, Bool.and_true]
  apply List.filter_congr
  intro x _
  rw [Bool.and_comm]

theorem alpha_backlog_snoc_alpha (c : Conf) (evs : List peak) (e : peak)
    (he : e.isalpha = true) (hI : 1 ≤ c.interval_uint) (hle : ∀ x ∈ evs, x.time ≤ e.time) :
    alpha_backlog_of c (evs ++ [e]) = alpha_backlog_of c evs ++ [backlog_entry e] := by
  unfold alpha_backlog_of
  simp only [List.filter_append, List.filter_cons, List.filter_nil, he, Bool.not_true,
    if_true, Bool.false_eq_true, if_false, List.append_nil, List.map_append, List.map_cons,
    List.map_nil]
  have : (List.filter (fun y => !y.isalpha) evs).all
      (fun g => decide (g.time < (backlog_entry e).time + c.interval_uint)) = true := by
    rw [List.all_eq_true]
    intro g hg
    have := hle g (List.mem_filter.mp hg).1
    simp only [backlog_entry, decide_eq_true_eq]
    omega
  simp [this]

theorem gamma_backlog_snoc_alpha (c : Conf) (evs : List peak) (e : peak)
    (he : e.isalpha = true) :
    gamma_backlog_of c (evs ++ [e]) =
      (gamma_backlog_of c evs).filter (fun p => decide (e.time ≤ p.time + c.interval_uint)) := by
  unfold gamma_backlog_of
  simp only [List.filter_append, List.filter_cons, List.filter_nil, he, Bool.not_true,
    if_true, Bool.false_eq_true, if_false, List.append_nil, List.filter_filter,
    List.all_append, List.all_cons, List.all_nil, Bool.and_true]
  apply List.filter_congr
  intro x _
  rw [Bool.and_comm]

theorem gamma_backlog_snoc_gamma (c : Conf) (evs : List peak) (e : peak)
    (he : e.isalpha = false) (hle : ∀ x ∈ evs, x.time ≤ e.time) :
    gamma_backlog_of c (evs ++ [e]) = gamma_backlog_of c evs ++ [backlog_entry e] := by
  unfold gamma_backlog_of
  simp only [List.filter_append, List.filter_cons, List.filter_nil, he, Bool.not_false,
    if_true, Bool.false_eq_true, if_false, List.append_nil, List.map_append, List.map_cons,
    List.map_nil]
  have : (List.filter (fun x => x.isalpha) evs).all
      (fun x => decide (x.time ≤ (backlog_entry e).time + c.interval_uint)) = true := by
    rw [List.all_eq_true]
    intro g hg
    have := hle g (List.mem_filter.mp hg).1
    simp only [backlog_entry, decide_eq_true_eq]
    omega
  simp [this]

theorem alpha_backlog_sorted (c : Conf) (evs : List peak)
    (hs : evs.Pairwise (fun x y => x.time ≤ y.time)) :
    (alpha_backlog_of c evs).Pairwise (fun x y => x.time ≤ y.time) := by
  unfold alpha_backlog_of
  apply List.Pairwise.filter
  rw [List.pairwise_map]
  exact List.Pairwise.filter _ hs

theorem gamma_backlog_sorted (c : Conf) (evs : List peak)
    (hs : evs.Pairwise (fun x y => x.time ≤ y.time)) :
    (gamma_backlog_of c evs).Pairwise (fun x y => x.time ≤ y.time) := by
  unfold gamma_backlog_of
  apply List.Pairwise.filter
  rw [List.pairwise_map]
  exact List.Pairwise.filter _ hs

theorem alpha_backlog_time (c : Conf) (evs : List peak) (p : peak)
    (hp : p ∈ alpha_backlog_of c evs) : ∃ x ∈ evs, x.time = p.time := by
  unfold alpha_backlog_of at hp
  obtain ⟨x, hx, rfl⟩ := List.mem_map.mp (List.mem_filter.mp hp).1
  exact ⟨x, (List.mem_filter.mp hx).1, rfl⟩

theorem gamma_backlog_time (c : Conf) (evs : List peak) (p : peak)
    (hp : p ∈ gamma_backlog_of c evs) : ∃ x ∈ evs, x.time = p.time := by
  unfold gamma_backlog_of at hp
  obtain ⟨x, hx, rfl⟩ := List.mem_map.mp (List.mem_filter.mp hp).1
  exact ⟨x, (List.mem_filter.mp hx).1, rfl⟩

/-! ## The engine along a time-ordered sequence -/

/-- Backlogs and cube of the engine after a time-ordered sequence, started
with empty backlogs. -/
theorem engine_inv (c : Conf) (s0 : State)
    (hI : 1 ≤ c.interval_uint) (h2I : 2 * c.interval_uint < 4294967296)
    (h0a : s0.active_trig_alpha = []) (h0g : s0.active_trig_gamma = []) :
    ∀ evs : List peak, evs.Pairwise (fun x y => x.time ≤ y.time) →
      (∀ e ∈ evs, e.time + c.interval_uint < 18446744073709551616) →
      (engine c s0 evs).active_trig_alpha = alpha_backlog_of c evs ∧
      (engine c s0 evs).active_trig_gamma = gamma_backlog_of c evs ∧
      ∀ a b t, a < alpha_binN c → b < gamma_binN c → t < 2 * c.interval_uint →
        s0.bins a b t < 4294967296 →
        (engine c s0 evs).bins a b t =
          (s0.bins a b t + pair_count c evs a b t) % 4294967296 := by
  intro evs
  induction evs using List.reverseRecOn with
  | nil =>
    intro _ _
    refine ⟨by simpa [engine, alpha_backlog_of] using h0a,
      by simpa [engine, gamma_backlog_of] using h0g, ?_⟩
    intro a b t _ _ _ h
    simp [engine, pair_count, Nat.mod_eq_of_lt h]
  | append_singleton evs e ih =>
    intro hs hw
    rw [List.pairwise_append] at hs
    have hle : ∀ x ∈ evs, x.time ≤ e.time := fun x hx => hs.2.2 x hx e (List.mem_singleton_self e)
    have hwe : e.time + c.interval_uint < 18446744073709551616 := hw e (by simp)
    obtain ⟨ih1, ih2, ih3⟩ := ih hs.1 (fun x hx => hw x (List.mem_append_left _ hx))
    rw [engine_snoc]
    cases he : e.isalpha with
    | false =>
      have hq := alpha_backlog_sorted c evs hs.1
      have hwq : ∀ p ∈ alpha_backlog_of c evs,
          p.time + c.interval_uint < 18446744073709551616 := by
        intro p hp
        obtain ⟨x, hx, hxt⟩ := alpha_backlog_time c evs p hp
        have := hw x (List.mem_append_left _ hx)
        omega
      rw [finalize_gamma_alpha_backlog c e _ he, finalize_gamma_gamma_backlog c e _ he,
        finalize_gamma_bins c e _ he, ih1, ih2, scan_alpha_sorted c e.time e.amp _ _ hq hwq]
      refine ⟨(alpha_backlog_snoc_gamma c evs e he).symm,
        (gamma_backlog_snoc_gamma c evs e he hle).symm, ?_⟩
      intro a b t ha hb ht h0
      have hlt : (engine c s0 evs).bins a b t < 4294967296 := by
        rw [ih3 a b t ha hb ht h0]; exact Nat.mod_lt _ (by norm_num)
      simp only
      rw [foldl_gamma_hit_cell c e.time e.amp a b t _ _ hlt, ih3 a b t ha hb ht h0,
        pair_count_snoc_gamma c evs e a b t he]
      have := count_gamma_hits c evs e a b t h2I hle hwe ha hb ht
      unfold alpha_backlog_of
      rw [this]
      omega
    | true =>
      have hq := gamma_backlog_sorted c evs hs.1
      have hwq : ∀ p ∈ gamma_backlog_of c evs,
          p.time + c.interval_uint < 18446744073709551616 := by
        intro p hp
        obtain ⟨x, hx, hxt⟩ := gamma_backlog_time c evs p hp
        have := hw x (List.mem_append_left _ hx)
        omega
      rw [finalize_alpha_alpha_backlog c e _ he, finalize_alpha_gamma_backlog c e _ he,
        finalize_alpha_bins c e _ he, ih1, ih2, scan_gamma_sorted c e.time e.amp _ _ hq hwq]
      refine ⟨(alpha_backlog_snoc_alpha c evs e he hI hle).symm,
        (gamma_backlog_snoc_alpha c evs e he).symm, ?_⟩
      intro a b t ha hb ht h0
      have hlt : (engine c s0 evs).bins a b t < 4294967296 := by
        rw [ih3 a b t ha hb ht h0]; exact Nat.mod_lt _ (by norm_num)
      simp only
      rw [foldl_alpha_hit_cell c e.time e.amp a b t _ _ hlt, ih3 a b t ha hb ht h0,
        pair_count_snoc_alpha c evs e a b t he]
      have := count_alpha_hits c evs e a b t hle hwe ha hb
      unfold gamma_backlog_of
      rw [this]
      omega

/-! ## The loop counters are large enough -/

theorem scan_alpha_succ (c : Conf) (ts : Nat) (amp : Int) (fuel j : Nat) (q : List peak)
    (bins : Nat → Nat → Nat → Nat) :
    scan_alpha c ts amp (fuel + 1) j q bins =
      match q[j]? with
      | none => (q, bins)
      | some p =>
        if ts ≥ (p.time + c.interval_uint) % 18446744073709551616 then
          scan_alpha c ts amp fuel j q.tail bins
        else
          scan_alpha c ts amp fuel (j + 1) q (gamma_hit c ts amp p bins) := rfl

theorem scan_gamma_succ (c : Conf) (ts : Nat) (amp : Int) (fuel j : Nat) (q : List peak)
    (bins : Nat → Nat → Nat → Nat) :
    scan_gamma c ts amp (fuel + 1) j q bins =
      match q[j]? with
      | none => (q, bins)
      | some p =>
        if ts > (p.time + c.interval_uint) % 18446744073709551616 then
          scan_gamma c ts amp fuel j q.tail bins
        else
          scan_gamma c ts amp fuel (j + 1) q (alpha_hit c ts amp p bins) := rfl

theorem window_release_succ_cons (c : Conf) (fuel : Nat) (front : peak) (rest : List peak) :
    window_release c (fuel + 1) (front :: rest) =
      if release_cond c front ((front :: rest).getLast (List.cons_ne_nil front rest)) then
        (front :: (window_release c fuel rest).1, (window_release c fuel rest).2)
      else ([], front :: rest) := rfl

/-- Once the counter covers `size - j`, the gamma-triggered scan has ended by
itself: a larger counter gives the same result. -/
theorem scan_alpha_fuel (c : Conf) (ts : Nat) (amp : Int) :
    ∀ (fuel j : Nat) (q : List peak) (bins : Nat → Nat → Nat → Nat), q.length - j ≤ fuel →
      scan_alpha c ts amp (fuel + 1) j q bins = scan_alpha c ts amp fuel j q bins := by
  intro fuel
  induction fuel with
  | zero =>
    intro j q bins h
    have hnone : q[j]? = none := List.getElem?_eq_none (by omega)
    simp [scan_alpha, hnone]
  | succ n ih =>
    intro j q bins h
    rw [scan_alpha_succ c ts amp (n + 1) j q bins, scan_alpha_succ c ts amp n j q bins]
    cases hq : q[j]? with
    | none => rfl
    | some p =>
      have hj : j < q.length := by
        by_contra hcon
        rw [List.getElem?_eq_none (by omega)] at hq
        exact Option.noConfusion hq
      simp only
      split
      · exact ih j q.tail bins (by rw [List.length_tail]; omega)
      · exact ih (j + 1) q _ (by omega)

/-- Once the counter covers `size - j`, the alpha-triggered scan has ended by
itself. -/
theorem scan_gamma_fuel (c : Conf) (ts : Nat) (amp : Int) :
    ∀ (fuel j : Nat) (q : List peak) (bins : Nat → Nat → Nat → Nat), q.length - j ≤ fuel →
      scan_gamma c ts amp (fuel + 1) j q bins = scan_gamma c ts amp fuel j q bins := by
  intro fuel
  induction fuel with
  | zero =>
    intro j q bins h
    have hnone : q[j]? = none := List.getElem?_eq_none (by omega)
    simp [scan_gamma, hnone]
  | succ n ih =>
    intro j q bins h
    rw [scan_gamma_succ c ts amp (n + 1) j q bins, scan_gamma_succ c ts amp n j q bins]
    cases hq : q[j]? with
    | none => rfl
    | some p =>
      have hj : j < q.length := by
        by_contra hcon
        rw [List.getElem?_eq_none (by omega)] at hq
        exact Option.noConfusion hq
      simp only
      split
      · exact ih j q.tail bins (by rw [List.length_tail]; omega)
      · exact ih (j + 1) q _ (by omega)

/-- Once the counter covers the buffer, the release loop has ended by itself. -/
theorem window_release_fuel (c : Conf) :
    ∀ (fuel : Nat) (buf : List peak), buf.length ≤ fuel →
      window_release c (fuel + 1) buf = window_release c fuel buf := by
  intro fuel
  induction fuel with
  | zero =>
    intro buf h
    have : buf = [] := List.length_eq_zero.mp (by omega)
    subst this
    simp [window_release]
  | succ n ih =>
    intro buf h
    cases buf with
    | nil => simp [window_release]
    | cons front rest =>
      rw [window_release_succ_cons c (n + 1) front rest, window_release_succ_cons c n front rest,
        ih rest (by simp at h; omega)]

/-- The stateful release loop likewise. -/
theorem release_loop_fuel (c : Conf) (fuel : Nat) (s : State) (h : s.time_shift.length ≤ fuel) :
    release_loop c (fuel + 1) s = release_loop c fuel s := by
  rw [release_loop_eq, release_loop_eq, window_release_fuel c fuel _ h]


/-! ## C1: order of finalization -/

/-- C1 (as amended): for any sequence of arriving events on which every call
of `std::sort` is defined (the window run has a result) and in which no event
arrives with a timestamp below that of an event the window has already
finalized, the sequence of finalized events is non-decreasing in timestamp,
whichever routine `std_sort` with the contract of `std::sort` does the
sorting. -/
theorem finalization_monotone (std_sort : List peak → List peak)
    (hsort : std_sort_contract std_sort) (c : Conf) (arr : List peak)
    (r : List peak × List peak) (hrun : window_run std_sort c [] arr = some r)
    (h : ∀ k (hk : k < arr.length), ∀ rk ∈ window_run std_sort c [] (arr.take k),
      ∀ e ∈ rk.1, e.time ≤ arr[k].time) :
    r.1.Pairwise (fun a b => a.time ≤ b.time) := by
  have := window_run_sorted_aux std_sort hsort c arr [] [] r hrun List.Pairwise.nil
    List.Pairwise.nil
    (by simp) (by
      intro k hk rk hrk e he
      exact h k hk rk (Option.mem_def.mpr hrk) e (by simpa using he))
  simp only [List.nil_append] at this
  exact (List.pairwise_append.mp this).1

/-- Witness for C1: interval 10, arrivals at 50, 100, 80, 200; the event at 80
arrives late but above the one event finalized before it (at 50). The window
finalizes 50, 80, 100 and keeps 200. -/
theorem finalization_monotone_witness :
    window_run insertion_sort ⟨0, false, 0, false, 10, 1, 1, 100, 100⟩ []
        [⟨50, 0, true⟩, ⟨100, 0, false⟩, ⟨80, 0, true⟩, ⟨200, 0, false⟩]
      = some ([⟨50, 0, true⟩, ⟨80, 0, true⟩, ⟨100, 0, false⟩], [⟨200, 0, false⟩]) ∧
    ([⟨50, 0, true⟩, ⟨80, 0, true⟩, ⟨100, 0, false⟩] : List peak).Pairwise
      (fun a b => a.time ≤ b.time) :=
  ⟨by decide,
    finalization_monotone insertion_sort insertion_sort_contract
      ⟨0, false, 0, false, 10, 1, 1, 100, 100⟩
      [⟨50, 0, true⟩, ⟨100, 0, false⟩, ⟨80, 0, true⟩, ⟨200, 0, false⟩]
      ([⟨50, 0, true⟩, ⟨80, 0, true⟩, ⟨100, 0, false⟩], [⟨200, 0, false⟩])
      (by decide) (by decide)⟩

/-- Counterexample to C1 as stated: interval 10, arrivals at 50, 100, 10, all
of different ticks. The arrival of 100 finalizes 50; the late event at 10 is
then finalized after it, so the finalized sequence 50, 10 is not monotonic. -/
theorem finalization_not_monotone :
    window_run insertion_sort ⟨0, false, 0, false, 10, 1, 1, 100, 100⟩ []
        [⟨50, 0, true⟩, ⟨100, 0, true⟩, ⟨10, 0, true⟩]
      = some ([⟨50, 0, true⟩, ⟨10, 0, true⟩], [⟨100, 0, true⟩]) ∧
    ¬ ([⟨50, 0, true⟩, ⟨10, 0, true⟩] : List peak).Pairwise
      (fun a b => a.time ≤ b.time) := by
  decide

/-! ## C2: the cube counts pairs -/

/-- C2 (as amended): starting from an all-zero cube, for every sequence of
finalized events whose timestamps are non-decreasing and for which
`time + interval` stays below `2^64`, with non-zero steps, `interval >= 1`,
`2*interval < 2^32` and the pair count of the cell below `2^32`: after the
engine has processed the sequence, `cube[a][b][t]` for `a`, `b` below the bin
counts and `t < 2*interval` is the number of (alpha, gamma) pairs with alpha
bin `a`, gamma bin `b` and `gamma.time - alpha.time = t - interval`. -/
theorem cube_counts_pairs (c : Conf) (evs : List peak)
    (_hsa : 0 < c.step_alpha) (_hsg : 0 < c.step_gamma)
    (hI : 1 ≤ c.interval_uint) (h2I : 2 * c.interval_uint < 2 ^ 32)
    (hs : evs.Pairwise (fun x y => x.time ≤ y.time))
    (hw : ∀ e ∈ evs, e.time + c.interval_uint < 2 ^ 64)
    (a b t : Nat) (ha : a < alpha_binN c) (hb : b < gamma_binN c)
    (ht : t < 2 * c.interval_uint)
    (hcount : pair_count c evs a b t < 2 ^ 32) :
    (engine c init_state evs).bins a b t = pair_count c evs a b t := by
  have h := (engine_inv c init_state hI (by norm_num at h2I ⊢; exact h2I) rfl rfl evs hs
    (by norm_num at hw ⊢; exact hw)).2.2 a b t ha hb ht (by simp [init_state])
  rw [h]
  simp only [init_state, Nat.zero_add]
  exact Nat.mod_eq_of_lt (by norm_num at hcount ⊢; exact hcount)

/-- Witness for C2: interval 1250, an alpha event at 1000 (bin 1) and a gamma
event at 2100 (bin 2); the cell at offset 2350 holds the one pair. -/
theorem cube_counts_pairs_witness :
    (engine ⟨-600, true, -600, true, 1250, 100, 100, -8191, -8191⟩ init_state
        [⟨1000, -700, true⟩, ⟨2100, -800, false⟩]).bins 1 2 2350 =
      pair_count ⟨-600, true, -600, true, 1250, 100, 100, -8191, -8191⟩
        [⟨1000, -700, true⟩, ⟨2100, -800, false⟩] 1 2 2350 ∧
    pair_count ⟨-600, true, -600, true, 1250, 100, 100, -8191, -8191⟩
        [⟨1000, -700, true⟩, ⟨2100, -800, false⟩] 1 2 2350 = 1 :=
  ⟨cube_counts_pairs ⟨-600, true, -600, true, 1250, 100, 100, -8191, -8191⟩
      [⟨1000, -700, true⟩, ⟨2100, -800, false⟩]
      (by decide) (by decide) (by decide) (by decide) (by decide) (by decide)
      1 2 2350 (by decide) (by decide) (by decide) (by decide),
    by decide⟩

/-- Counterexample to C2 as stated: interval 1, an alpha and a gamma event
both at tick `2^64 - 1`, the largest timestamp. All conditions of the claim
hold and the pair has separation 0, so cell `(0, 0, 1)` should hold 1; the
eviction test `timestamp >= time + interval_uint` wraps to `timestamp >= 0`,
the alpha entry is dropped and the cell stays 0. -/
theorem cube_misses_pair_at_wrap :
    [(⟨18446744073709551615, 0, true⟩ : peak), ⟨18446744073709551615, 0, false⟩].Pairwise
      (fun x y => x.time ≤ y.time) ∧
    (0 : Nat) < alpha_binN ⟨0, false, 0, false, 1, 1, 1, 10, 10⟩ ∧
    (0 : Nat) < gamma_binN ⟨0, false, 0, false, 1, 1, 1, 10, 10⟩ ∧
    pair_count ⟨0, false, 0, false, 1, 1, 1, 10, 10⟩
      [⟨18446744073709551615, 0, true⟩, ⟨18446744073709551615, 0, false⟩] 0 0 1 = 1 ∧
    (engine ⟨0, false, 0, false, 1, 1, 1, 10, 10⟩ init_state
      [⟨18446744073709551615, 0, true⟩, ⟨18446744073709551615, 0, false⟩]).bins 0 0 1 = 0 := by
  decide
/-! ## C3: one alpha event followed by one gamma event -/

/-- C4 (as amended): for an alpha event at `tA` and a gamma event at `tG`
that the engine matches, the cell incremented is the one at offset
`interval + (tG - tA)`, the difference taken signed, whichever event
triggered the scan.
* Over any time-ordered backlog the gamma-triggered scan applies its body
  `gamma_hit` to exactly the entries it does not evict, the alpha-triggered
  scan its body `alpha_hit`.
* On the pair, the gamma-triggered body (`tA <= tG`, entry not evicted)
  increments the cell `(alpha bin, gamma bin, interval + (tG - tA))` when its
  guards hold and nothing otherwise; the alpha-triggered body (`tG <= tA`,
  entry not evicted) increments the cell
  `(alpha bin, gamma bin, interval - (tA - tG))` when its guard holds and
  nothing otherwise.  Both offsets are `interval + (tG - tA)` as integers.
* For `tA = tG`, when `interval >= 1`, `2*interval < 2^32`,
  `tA + interval < 2^64` and both bins are valid, both directions increment
  the cell at offset `interval`. -/
theorem offset_symmetry (c : Conf) (tA tG : Nat) (ampA ampG : Int)
    (hI : c.interval_uint < 2 ^ 32) (hA : tA < 2 ^ 64) (hG : tG < 2 ^ 64) :
    (∀ s : State, s.active_trig_alpha.Pairwise (fun p q => p.time ≤ q.time) →
      (∀ p ∈ s.active_trig_alpha, p.time + c.interval_uint < 2 ^ 64) →
      (finalize c ⟨tG, ampG, false⟩ s).bins =
        (s.active_trig_alpha.filter fun p => decide (tG < p.time + c.interval_uint)).foldl
          (fun b p => gamma_hit c tG ampG p b) s.bins) ∧
    (∀ s : State, s.active_trig_gamma.Pairwise (fun p q => p.time ≤ q.time) →
      (∀ p ∈ s.active_trig_gamma, p.time + c.interval_uint < 2 ^ 64) →
      (finalize c ⟨tA, ampA, true⟩ s).bins =
        (s.active_trig_gamma.filter fun p => decide (tA ≤ p.time + c.interval_uint)).foldl
          (fun b p => alpha_hit c tA ampA p b) s.bins) ∧
    (tA ≤ tG → tG < (tA + c.interval_uint) % 2 ^ 64 →
      ((c.interval_uint + (tG - tA) : Nat) : Int) =
        (c.interval_uint : Int) + ((tG : Int) - (tA : Int)) ∧
      ∀ (fl : Bool) (bins : Nat → Nat → Nat → Nat),
        gamma_hit c tG ampG ⟨tA, ampA, fl⟩ bins =
          if c.interval_uint + (tG - tA) < two_interval c ∧
              alpha_bin c ampA < alpha_binN c ∧ gamma_bin c ampG < gamma_binN c
          then inc3 bins (alpha_bin c ampA) (gamma_bin c ampG) (c.interval_uint + (tG - tA))
          else bins) ∧
    (tG ≤ tA → tA ≤ (tG + c.interval_uint) % 2 ^ 64 →
      ((c.interval_uint - (tA - tG) : Nat) : Int) =
        (c.interval_uint : Int) + ((tG : Int) - (tA : Int)) ∧
      ∀ (fl : Bool) (bins : Nat → Nat → Nat → Nat),
        alpha_hit c tA ampA ⟨tG, ampG, fl⟩ bins =
          if alpha_bin c ampA < alpha_binN c ∧ gamma_bin c ampG < gamma_binN c
          then inc3 bins (alpha_bin c ampA) (gamma_bin c ampG) (c.interval_uint - (tA - tG))
          else bins) ∧
    (tA = tG → 1 ≤ c.interval_uint → 2 * c.interval_uint < 2 ^ 32 →
      tA + c.interval_uint < 2 ^ 64 →
      alpha_bin c ampA < alpha_binN c → gamma_bin c ampG < gamma_binN c →
      ∀ s : State,
      (s.active_trig_alpha = [⟨tA, ampA, false⟩] →
        (finalize c ⟨tG, ampG, false⟩ s).bins =
          inc3 s.bins (alpha_bin c ampA) (gamma_bin c ampG) c.interval_uint) ∧
      (s.active_trig_gamma = [⟨tG, ampG, false⟩] →
        (finalize c ⟨tA, ampA, true⟩ s).bins =
          inc3 s.bins (alpha_bin c ampA) (gamma_bin c ampG) c.interval_uint)) := by
  norm_num at hI hA hG
  refine ⟨?_, ?_, ?_, ?_, ?_⟩
  · intro s hs hw
    norm_num at hw
    rw [finalize_gamma_bins c _ _ rfl]
    exact congrArg Prod.snd (scan_alpha_sorted c tG ampG s.active_trig_alpha s.bins hs hw)
  · intro s hs hw
    norm_num at hw
    rw [finalize_alpha_bins c _ _ rfl]
    exact congrArg Prod.snd (scan_gamma_sorted c tA ampA s.active_trig_gamma s.bins hs hw)
  · intro hle hev
    norm_num at hev
    have hsub : sub64 tG tA = tG - tA := by unfold sub64; omega
    have hoff : (c.interval_uint + (tG - tA)) % 18446744073709551616
        = c.interval_uint + (tG - tA) := by omega
    refine ⟨by omega, ?_⟩
    intro fl bins
    unfold gamma_hit
    simp only [hsub, hoff]
    by_cases h1 : c.interval_uint + (tG - tA) < two_interval c
    · by_cases h2 : alpha_bin c ampA < alpha_binN c ∧ gamma_bin c ampG < gamma_binN c
      · rw [if_pos h1, if_pos h2, if_pos ⟨h1, h2⟩]
      · rw [if_pos h1, if_neg h2, if_neg (fun h => h2 h.2)]
    · rw [if_neg h1, if_neg (fun h => h1 h.1)]
  · intro hle hev
    norm_num at hev
    have hsub : sub64 tA tG = tA - tG := by unfold sub64; omega
    have hd : tA - tG ≤ c.interval_uint := by omega
    have hoff : sub64 c.interval_uint (tA - tG) = c.interval_uint - (tA - tG) := by
      unfold sub64; omega
    refine ⟨by omega, ?_⟩
    intro fl bins
    unfold alpha_hit
    simp only [hsub, hoff]
    rw [if_pos (Nat.sub_le _ _)]
  · intro heq hI1 h2I hw hva hvb s
    subst heq
    norm_num at h2I hw
    constructor
    · intro hb
      rw [finalize_gamma_bins c _ _ rfl, hb]
      have hev : ¬ (tA ≥ (tA + c.interval_uint) % 18446744073709551616) := by omega
      have hsub : sub64 tA tA = 0 := by unfold sub64; omega
      have hoff : c.interval_uint % 18446744073709551616 = c.interval_uint := by omega
      have h2 : c.interval_uint < two_interval c := by rw [two_interval_eq c h2I]; omega
      simp [scan_alpha, hev, gamma_hit, hsub, hoff, h2, hva, hvb]
    · intro hb
      rw [finalize_alpha_bins c _ _ rfl, hb]
      have hev : ¬ (tA > (tA + c.interval_uint) % 18446744073709551616) := by omega
      have hsub : sub64 tA tA = 0 := by unfold sub64; omega
      have hoff : sub64 c.interval_uint 0 = c.interval_uint := by unfold sub64; omega
      simp [scan_gamma, hev, alpha_hit, hsub, hoff, hva, hvb]

/-- Witness for C4: interval 1250, alpha (bin 1) and gamma (bin 2) both at
tick 1000; the gamma-triggered and the alpha-triggered scan both increment
the cell at offset 1250. -/
theorem offset_symmetry_witness :
    (finalize ⟨-600, true, -600, true, 1250, 100, 100, -8191, -8191⟩ ⟨1000, -800, false⟩
        { init_state with
          active_trig_alpha := [⟨1000, -700, false⟩]
          active_trig_gamma := [⟨1000, -800, false⟩] }).bins =
      inc3 init_state.bins 1 2 1250 ∧
    (finalize ⟨-600, true, -600, true, 1250, 100, 100, -8191, -8191⟩ ⟨1000, -700, true⟩
        { init_state with
          active_trig_alpha := [⟨1000, -700, false⟩]
          active_trig_gamma := [⟨1000, -800, false⟩] }).bins =
      inc3 init_state.bins 1 2 1250 :=
  ⟨((offset_symmetry ⟨-600, true, -600, true, 1250, 100, 100, -8191, -8191⟩
      1000 1000 (-700) (-800) (by decide) (by decide) (by decide)).2.2.2.2
      rfl (by decide) (by decide) (by decide) (by decide) (by decide)
      { init_state with
        active_trig_alpha := [⟨1000, -700, false⟩]
        active_trig_gamma := [⟨1000, -800, false⟩] }).1 rfl,
    ((offset_symmetry ⟨-600, true, -600, true, 1250, 100, 100, -8191, -8191⟩
      1000 1000 (-700) (-800) (by decide) (by decide) (by decide)).2.2.2.2
      rfl (by decide) (by decide) (by decide) (by decide) (by decide)
      { init_state with
        active_trig_alpha := [⟨1000, -700, false⟩]
        active_trig_gamma := [⟨1000, -800, false⟩] }).2 rfl⟩

/-- Counterexample to C4 as stated: an alpha event and a gamma event of valid
bins, both at tick 1000.  With interval 0 the gamma-triggered scan evicts the
alpha entry (`1000 >= 1000 + 0`) and leaves the cube as it is, while the
alpha-triggered scan increments the cell at offset 0.  With interval `2^31`
the gamma-triggered guard `interval < 2*interval_uint` fails, `2*interval_uint`
being 0 in 32 bits, while the alpha-triggered scan increments the cell at
offset `2^31`. -/
theorem offset_asymmetric_at_equal_ticks :
    (finalize ⟨0, false, 0, false, 0, 1, 1, 100, 100⟩ ⟨1000, 0, false⟩
        { init_state with
          active_trig_alpha := [⟨1000, 0, false⟩]
          active_trig_gamma := [⟨1000, 0, false⟩] }).bins = init_state.bins ∧
    (finalize ⟨0, false, 0, false, 0, 1, 1, 100, 100⟩ ⟨1000, 0, true⟩
        { init_state with
          active_trig_alpha := [⟨1000, 0, false⟩]
          active_trig_gamma := [⟨1000, 0, false⟩] }).bins = inc3 init_state.bins 0 0 0 ∧
    (finalize ⟨0, false, 0, false, 2147483648, 1, 1, 100, 100⟩ ⟨1000, 0, false⟩
        { init_state with
          active_trig_alpha := [⟨1000, 0, false⟩]
          active_trig_gamma := [⟨1000, 0, false⟩] }).bins = init_state.bins ∧
    (finalize ⟨0, false, 0, false, 2147483648, 1, 1, 100, 100⟩ ⟨1000, 0, true⟩
        { init_state with
          active_trig_alpha := [⟨1000, 0, false⟩]
          active_trig_gamma := [⟨1000, 0, false⟩] }).bins =
      inc3 init_state.bins 0 0 2147483648 ∧
    inc3 init_state.bins 0 0 0 0 0 0 = 1 ∧ init_state.bins 0 0 0 = 0 ∧
    inc3 init_state.bins 0 0 2147483648 0 0 2147483648 = 1 ∧
    init_state.bins 0 0 2147483648 = 0 := by
  refine ⟨?_, ?_, ?_, ?_, by decide, by decide, by decide, by decide⟩
  · rw [finalize_gamma_bins _ _ _ rfl]
    simp [scan_alpha, init_state]
  · rw [finalize_alpha_bins _ _ _ rfl]
    simp [scan_gamma, alpha_hit, sub64, init_state, alpha_bin, gamma_bin, alpha_binN,
      gamma_binN, ENmax_alpha, ENmax_gamma, toU32]
  · rw [finalize_gamma_bins _ _ _ rfl]
    simp [scan_alpha, gamma_hit, sub64, two_interval, init_state]
  · rw [finalize_alpha_bins _ _ _ rfl]
    simp [scan_gamma, alpha_hit, sub64, init_state, alpha_bin, gamma_bin, alpha_binN,
      gamma_binN, ENmax_alpha, ENmax_gamma, toU32]

/-! ## C5: totals and singles spectra -/

theorem finalize_N_alpha (c : Conf) (e : peak) (s : State) :
    (finalize c e s).N_alpha =
      if e.isalpha then (s.N_alpha + 1) % 18446744073709551616 else s.N_alpha := by
  unfold finalize coincidence push_active count_single
  by_cases h : e.isalpha <;> simp [h]

theorem finalize_N_gamma (c : Conf) (e : peak) (s : State) :
    (finalize c e s).N_gamma =
      if e.isalpha then s.N_gamma else (s.N_gamma + 1) % 18446744073709551616 := by
  unfold finalize coincidence push_active count_single
  by_cases h : e.isalpha <;> simp [h]

theorem finalize_alpha_array (c : Conf) (e : peak) (s : State) :
    (finalize c e s).alpha_array =
      if e.isalpha = true ∧ ((e.amp - c.alpha_thresh).natAbs : Int) < ENmax_alpha c then
        inc1 s.alpha_array (e.amp - c.alpha_thresh).natAbs
      else s.alpha_array := by
  unfold finalize coincidence push_active count_single
  by_cases h : e.isalpha <;> simp [h]

theorem finalize_gamma_array (c : Conf) (e : peak) (s : State) :
    (finalize c e s).gamma_array =
      if e.isalpha = false ∧ ((e.amp - c.gamma_thresh).natAbs : Int) < ENmax_gamma c then
        inc1 s.gamma_array (e.amp - c.gamma_thresh).natAbs
      else s.gamma_array := by
  unfold finalize coincidence push_active count_single
  by_cases h : e.isalpha <;> simp [h]

theorem engine_totals (c : Conf) (evs : List peak) :
    ∀ s : State, s.N_alpha + s.N_gamma + evs.length < 18446744073709551616 →
      (engine c s evs).N_alpha + (engine c s evs).N_gamma = s.N_alpha + s.N_gamma + evs.length := by
  induction evs with
  | nil => intro s _; simp [engine]
  | cons e evs ih =>
    intro s hlt
    have h : engine c s (e :: evs) = engine c (finalize c e s) evs := rfl
    rw [List.length_cons] at hlt
    have ha := finalize_N_alpha c e s
    have hg := finalize_N_gamma c e s
    by_cases he : e.isalpha
    · rw [if_pos he] at ha hg
      rw [Nat.mod_eq_of_lt (by omega)] at ha
      rw [h, ih _ (by rw [ha, hg]; omega), ha, hg, List.length_cons]
      omega
    · rw [if_neg he] at ha hg
      rw [Nat.mod_eq_of_lt (by omega)] at hg
      rw [h, ih _ (by rw [ha, hg]; omega), ha, hg, List.length_cons]
      omega

/-- C5 (as amended): after any sequence of fewer than `2^64` finalized events
(started at zero totals) `N_alpha + N_gamma` is the number of finalized
events. Finalizing one event raises the total of its channel by 1 in 64-bit
unsigned arithmetic (by exactly 1 below `2^64 - 1`) and leaves the other total
unchanged; it never touches the singles spectrum of the other channel; when
`abs(amplitude - thresh) < ENmax` it increments exactly one entry of the
spectrum of its channel, by 1 in 32-bit unsigned arithmetic (by exactly 1
unless the entry holds `2^32 - 1`), and otherwise it changes no singles entry. -/
theorem finalize_totals_and_singles (c : Conf) (s : State) (evs : List peak) (e : peak) :
    (evs.length < 2 ^ 64 →
      (engine c init_state evs).N_alpha + (engine c init_state evs).N_gamma = evs.length) ∧
    (e.isalpha = true →
      (finalize c e s).N_alpha = (s.N_alpha + 1) % 2 ^ 64 ∧
      (s.N_alpha + 1 < 2 ^ 64 → (finalize c e s).N_alpha = s.N_alpha + 1) ∧
      (finalize c e s).N_gamma = s.N_gamma ∧
      (finalize c e s).gamma_array = s.gamma_array ∧
      (((e.amp - c.alpha_thresh).natAbs : Int) < ENmax_alpha c →
        (finalize c e s).alpha_array (e.amp - c.alpha_thresh).natAbs =
          (s.alpha_array (e.amp - c.alpha_thresh).natAbs + 1) % 2 ^ 32 ∧
        (s.alpha_array (e.amp - c.alpha_thresh).natAbs + 1 < 2 ^ 32 →
          (finalize c e s).alpha_array (e.amp - c.alpha_thresh).natAbs =
            s.alpha_array (e.amp - c.alpha_thresh).natAbs + 1) ∧
        ∀ i, i ≠ (e.amp - c.alpha_thresh).natAbs →
          (finalize c e s).alpha_array i = s.alpha_array i) ∧
      (¬ ((e.amp - c.alpha_thresh).natAbs : Int) < ENmax_alpha c →
        (finalize c e s).alpha_array = s.alpha_array)) ∧
    (e.isalpha = false →
      (finalize c e s).N_gamma = (s.N_gamma + 1) % 2 ^ 64 ∧
      (s.N_gamma + 1 < 2 ^ 64 → (finalize c e s).N_gamma = s.N_gamma + 1) ∧
      (finalize c e s).N_alpha = s.N_alpha ∧
      (finalize c e s).alpha_array = s.alpha_array ∧
      (((e.amp - c.gamma_thresh).natAbs : Int) < ENmax_gamma c →
        (finalize c e s).gamma_array (e.amp - c.gamma_thresh).natAbs =
          (s.gamma_array (e.amp - c.gamma_thresh).natAbs + 1) % 2 ^ 32 ∧
        (s.gamma_array (e.amp - c.gamma_thresh).natAbs + 1 < 2 ^ 32 →
          (finalize c e s).gamma_array (e.amp - c.gamma_thresh).natAbs =
            s.gamma_array (e.amp - c.gamma_thresh).natAbs + 1) ∧
        ∀ i, i ≠ (e.amp - c.gamma_thresh).natAbs →
          (finalize c e s).gamma_array i = s.gamma_array i) ∧
      (¬ ((e.amp - c.gamma_thresh).natAbs : Int) < ENmax_gamma c →
        (finalize c e s).gamma_array = s.gamma_array)) := by
  refine ⟨?_, ?_, ?_⟩
  · intro hlen
    norm_num at hlen
    have := engine_totals c evs init_state (by simpa [init_state] using hlen)
    simpa [init_state] using this
  · intro he
    rw [finalize_N_alpha, finalize_N_gamma, finalize_gamma_array, finalize_alpha_array]
    refine ⟨by simp [he], ?_, by simp [he], by simp [he], ?_, ?_⟩
    · intro hsmall
      norm_num at hsmall
      rw [if_pos he]
      exact Nat.mod_eq_of_lt hsmall
    · intro hlt
      rw [if_pos ⟨he, hlt⟩]
      refine ⟨by simp [inc1], ?_, ?_⟩
      · intro hsmall
        norm_num at hsmall
        simp only [inc1, if_true]
        exact Nat.mod_eq_of_lt hsmall
      · intro i hi
        simp [inc1, hi]
    · intro hge
      rw [if_neg (fun h => hge h.2)]
  · intro he
    rw [finalize_N_alpha, finalize_N_gamma, finalize_gamma_array, finalize_alpha_array]
    refine ⟨by simp [he], ?_, by simp [he], by simp [he], ?_, ?_⟩
    · intro hsmall
      norm_num at hsmall
      simp only [he, Bool.false_eq_true, if_false]
      exact Nat.mod_eq_of_lt hsmall
    · intro hlt
      rw [if_pos ⟨he, hlt⟩]
      refine ⟨by simp [inc1], ?_, ?_⟩
      · intro hsmall
        norm_num at hsmall
        simp only [inc1, if_true]
        exact Nat.mod_eq_of_lt hsmall
      · intro i hi
        simp [inc1, hi]
    · intro hge
      rw [if_neg (fun h => hge h.2)]

/-- Witness for C5: thresholds -600, falling edges, `ENmax = 7592`. An alpha
event of amplitude -700 (index 100, in the domain) on the empty state raises
`N_alpha` to 1 and `alpha_array[100]` to 1. -/
theorem finalize_totals_and_singles_witness :
    (finalize ⟨-600, true, -600, true, 1250, 100, 100, -8191, -8191⟩ ⟨1000, -700, true⟩
        init_state).N_alpha = 0 + 1 ∧
    (finalize ⟨-600, true, -600, true, 1250, 100, 100, -8191, -8191⟩ ⟨1000, -700, true⟩
        init_state).alpha_array 100 = 0 + 1 :=
  ⟨((finalize_totals_and_singles ⟨-600, true, -600, true, 1250, 100, 100, -8191, -8191⟩
      init_state [] ⟨1000, -700, true⟩).2.1 rfl).2.1 (by decide),
    ((((finalize_totals_and_singles ⟨-600, true, -600, true, 1250, 100, 100, -8191, -8191⟩
      init_state [] ⟨1000, -700, true⟩).2.1 rfl).2.2.2.2.1 (by decide)).2.1 (by decide))⟩

/-- Counterexample to C5 as stated: rising edge, threshold 0, maximum 0
(`ENmax = 1`), `alpha.dat` holding the one word `2^32 - 1`. The loaded state has
`alpha_array[0] = 4294967295`; finalizing an alpha event of amplitude 0 (in
the domain) leaves `alpha_array[0] = 0`, not the entry plus 1. Likewise a
total standing at `2^64 - 1` is taken to 0 by the next event of its channel. -/
theorem singles_increment_wraps :
    ((0 - (0 : Int)).natAbs : Int) < ENmax_alpha ⟨0, false, 0, false, 10, 1, 1, 0, 0⟩ ∧
    (load ⟨0, false, 0, false, 10, 1, 1, 0, 0⟩
      ⟨[], [], some [4294967295], none, none, none⟩).map (fun s => s.alpha_array 0)
      = some 4294967295 ∧
    (load ⟨0, false, 0, false, 10, 1, 1, 0, 0⟩
      ⟨[], [], some [4294967295], none, none, none⟩).map
        (fun s => (finalize ⟨0, false, 0, false, 10, 1, 1, 0, 0⟩ ⟨5, 0, true⟩ s).alpha_array 0)
      = some 0 ∧
    (finalize ⟨0, false, 0, false, 10, 1, 1, 0, 0⟩ ⟨5, 0, true⟩
      { init_state with N_alpha := 18446744073709551615 }).N_alpha = 0 := by
  decide

/-! ## C6: accumulation on top of a loaded snapshot -/

theorem dump_array_length (n : Nat) (arr : Nat → Nat) : (dump_array n arr).length = n := by
  simp [dump_array]

theorem dump_array_getElem? (n : Nat) (arr : Nat → Nat) (k : Nat) (hk : k < n) :
    (dump_array n arr)[k]? = some (arr k) := by
  simp [dump_array, List.getElem?_range hk]

theorem load_dump_array (n : Nat) (arr : Nat → Nat) :
    load_array n (some (dump_array n arr)) = some (fun i => if i < n then arr i else 0) := by
  unfold load_array
  simp only
  rw [if_pos (by rw [dump_array_length])]
  congr 1
  funext i
  by_cases h : i < n
  · simp [h, dump_array_getElem? n arr i h]
  · simp [h]

theorem flatMap_range_length (f : Nat → List Nat) (L : Nat) (hf : ∀ i, (f i).length = L) :
    ∀ n, ((List.range n).flatMap f).length = n * L := by
  intro n
  induction n with
  | zero => simp
  | succ n ih =>
    rw [List.range_succ, List.flatMap_append, List.length_append, ih]
    simp [hf, Nat.succ_mul]

theorem flatMap_range_getD (f : Nat → List Nat) (L : Nat) (hf : ∀ i, (f i).length = L)
    (d : Nat) :
    ∀ (n i r : Nat), i < n → r < L →
      ((List.range n).flatMap f).getD (i * L + r) d = (f i).getD r d := by
  intro n
  induction n with
  | zero => intro i r hi _; omega
  | succ n ih =>
    intro i r hi hr
    rw [List.range_succ, List.flatMap_append]
    have hlen := flatMap_range_length f L hf n
    by_cases hin : i < n
    · have hlt : i * L + r < ((List.range n).flatMap f).length := by
        rw [hlen]
        calc i * L + r < i * L + L := by omega
          _ = (i + 1) * L := by rw [Nat.succ_mul]
          _ ≤ n * L := Nat.mul_le_mul_right L hin
      rw [List.getD_append _ _ _ _ hlt]
      exact ih i r hin hr
    · have hi2 : i = n := by omega
      subst hi2
      rw [List.getD_append_right _ _ _ _ (by rw [hlen]; omega), hlen]
      simp

theorem dump_bins_length (c : Conf) (bins : Nat → Nat → Nat → Nat) :
    (dump_bins c bins).length = alpha_binN c * gamma_binN c * two_interval c := by
  unfold dump_bins
  rw [flatMap_range_length _ (gamma_binN c * two_interval c), Nat.mul_assoc]
  intro i
  exact flatMap_range_length _ _ (fun j => dump_array_length _ _) _

theorem load_dump_bins (c : Conf) (bins : Nat → Nat → Nat → Nat) :
    load_bins c (some (dump_bins c bins)) = some (fun i j k =>
      if i < alpha_binN c ∧ j < gamma_binN c ∧ k < two_interval c then bins i j k else 0) := by
  unfold load_bins
  simp only
  rw [if_pos (by rw [dump_bins_length])]
  congr 1
  funext i j k
  by_cases h : i < alpha_binN c ∧ j < gamma_binN c ∧ k < two_interval c
  · rw [if_pos h, if_pos h]
    obtain ⟨hi, hj, hk⟩ := h
    have hrow : ∀ i j, (dump_array (two_interval c) (bins i j)).length = two_interval c :=
      fun i j => dump_array_length _ _
    have hin : ∀ i, ((List.range (gamma_binN c)).flatMap fun j =>
        dump_array (two_interval c) (bins i j)).length = gamma_binN c * two_interval c :=
      fun i => flatMap_range_length _ _ (hrow i) _
    have hidx : (i * gamma_binN c + j) * two_interval c + k
        = i * (gamma_binN c * two_interval c) + (j * two_interval c + k) := by ring
    have hjk : j * two_interval c + k < gamma_binN c * two_interval c := by
      calc j * two_interval c + k < j * two_interval c + two_interval c := by omega
        _ = (j + 1) * two_interval c := by rw [Nat.succ_mul]
        _ ≤ gamma_binN c * two_interval c := Nat.mul_le_mul_right _ hj
    unfold dump_bins
    rw [hidx, flatMap_range_getD _ _ hin 0 _ i _ hi hjk,
      flatMap_range_getD _ _ (hrow i) 0 _ j k hj hk]
    simp [dump_array_getElem? _ _ k hk]
  · rw [if_neg h, if_neg h]

/-- The stores a run has written are read back in full by the next run. -/
theorem load_save (c : Conf) (s : State) (d : Disk) :
    load c (save c s d) =
      some
        { N_alpha := 0
          N_gamma := 0
          alpha_array := fun i => if i < (ENmax_alpha c).toNat then s.alpha_array i else 0
          gamma_array := fun i => if i < (ENmax_gamma c).toNat then s.gamma_array i else 0
          bins := fun i j k =>
            if i < alpha_binN c ∧ j < gamma_binN c ∧ k < two_interval c then s.bins i j k
            else 0
          active_trig_alpha := []
          active_trig_gamma := []
          time_shift := [] } := by
  unfold load save
  simp only
  rw [load_dump_array, load_dump_array, load_dump_bins]

theorem main_past_guard (std_sort : List peak → List peak)
    (c : Conf) (d : Disk) (samples : List peak)
    (h : (_match_confs d).1 = false) : (main std_sort c d samples).2.isSome = true := by
  unfold main
  simp only [h, Bool.false_eq_true, if_false]
  cases (load c (_match_confs d).2).bind fun s0 => acquire std_sort c s0 samples <;> rfl

theorem main_reaches_saving {std_sort : List peak → List peak}
    {c : Conf} {d : Disk} {samples : List peak} {s : State}
    (h : (main std_sort c d samples).2 = some (some s)) :
    (_match_confs d).1 = false ∧
      (∃ s0, load c (_match_confs d).2 = some s0 ∧ acquire std_sort c s0 samples = some s) ∧
      main std_sort c d samples = (save c s (_match_confs d).2, some (some s)) := by
  unfold main at h ⊢
  by_cases hm : (_match_confs d).1 = true
  · simp [hm] at h
  · have hm2 : (_match_confs d).1 = false := by simpa using hm
    simp only [hm2, Bool.false_eq_true, if_false] at h ⊢
    cases hl : load c (_match_confs d).2 with
    | none => rw [hl] at h; simp at h
    | some s0 =>
      rw [hl] at h
      simp only [Option.some_bind] at h ⊢
      cases hr : acquire std_sort c s0 samples with
      | none => rw [hr] at h; simp at h
      | some s2 =>
        rw [hr] at h
        simp only [Option.some.injEq] at h
        subst h
        exact ⟨trivial, ⟨s0, rfl, hr⟩, rfl⟩

/-- C7: for thresholds and maxima in `[-8192, 8191]` the domain size of a
channel is `max - thresh + 1` on a rising edge and `-(max - thresh) + 1` on a
falling edge, every value staying far inside the range of `int`; a
falling-edge channel with `thresh = -600`, `max = -8191` has `ENmax = 7592`,
a rising-edge channel with `thresh = -600`, `max = 8191` has `ENmax = 8792`. -/
theorem ENmax_formula (c : Conf)
    (hat : -8192 ≤ c.alpha_thresh ∧ c.alpha_thresh ≤ 8191)
    (ham : -8192 ≤ c.alpha_max ∧ c.alpha_max ≤ 8191)
    (hgt : -8192 ≤ c.gamma_thresh ∧ c.gamma_thresh ≤ 8191)
    (hgm : -8192 ≤ c.gamma_max ∧ c.gamma_max ≤ 8191) :
    (c.alpha_edge = false → ENmax_alpha c = c.alpha_max - c.alpha_thresh + 1) ∧
    (c.alpha_edge = true → ENmax_alpha c = -(c.alpha_max - c.alpha_thresh) + 1) ∧
    (c.gamma_edge = false → ENmax_gamma c = c.gamma_max - c.gamma_thresh + 1) ∧
    (c.gamma_edge = true → ENmax_gamma c = -(c.gamma_max - c.gamma_thresh) + 1) ∧
    (-16382 ≤ ENmax_alpha c ∧ ENmax_alpha c ≤ 16384) ∧
    (-16382 ≤ ENmax_gamma c ∧ ENmax_gamma c ≤ 16384) ∧
    ENmax_alpha ⟨-600, true, -600, true, 1250, 100, 100, -8191, -8191⟩ = 7592 ∧
    ENmax_gamma ⟨-600, true, -600, true, 1250, 100, 100, -8191, -8191⟩ = 7592 ∧
    ENmax_alpha ⟨-600, false, -600, false, 1250, 100, 100, 8191, 8191⟩ = 8792 ∧
    ENmax_gamma ⟨-600, false, -600, false, 1250, 100, 100, 8191, 8191⟩ = 8792 := by
  refine ⟨?_, ?_, ?_, ?_, ?_, ?_, by decide, by decide, by decide, by decide⟩
  · intro h; simp [ENmax_alpha, h]
  · intro h; simp [ENmax_alpha, h]
  · intro h; simp [ENmax_gamma, h]
  · intro h; simp [ENmax_gamma, h]
  · unfold ENmax_alpha
    cases c.alpha_edge <;> simp <;> omega
  · unfold ENmax_gamma
    cases c.gamma_edge <;> simp <;> omega

/-- Witness for C7: the template configuration of the program (thresholds
-600, falling edges, maxima -8191). -/
theorem ENmax_formula_witness :
    ENmax_alpha ⟨-600, true, -600, true, 1250, 100, 100, -8191, -8191⟩ =
      -((-8191 : Int) - (-600)) + 1 :=
  (ENmax_formula ⟨-600, true, -600, true, 1250, 100, 100, -8191, -8191⟩
    (by decide) (by decide) (by decide) (by decide)).2.1 rfl

/-! ## C8: the time-offset projection -/

/-- C9 (as amended): for every non-empty stored fingerprint
(`measurements/agc_conf.txt`) and every current configuration (`agc_conf.txt`)
that differs from it, `_match_confs` reports a mismatch and the run stops
there, leaving the whole disk (fingerprint and stores) as it was; when the two
are equal the run proceeds; when the stored fingerprint is empty or missing,
`_match_confs` copies the current configuration over it, reports no mismatch
and the run proceeds. -/
theorem match_confs_guard (std_sort : List peak → List peak)
    (c : Conf) (d : Disk) (samples : List peak) :
    (d.measurements_agc_conf ≠ [] → d.agc_conf ≠ d.measurements_agc_conf →
      (_match_confs d).1 = true ∧ main std_sort c d samples = (d, none)) ∧
    (d.agc_conf = d.measurements_agc_conf →
      (_match_confs d).1 = false ∧ (_match_confs d).2 = d ∧
        (main std_sort c d samples).2.isSome = true) ∧
    (d.measurements_agc_conf = [] →
      _match_confs d = (false, { d with measurements_agc_conf := d.agc_conf }) ∧
        (main std_sort c d samples).2.isSome = true) := by
  refine ⟨?_, ?_, ?_⟩
  · intro hne hdiff
    have he : d.measurements_agc_conf.isEmpty = false := by
      cases h : d.measurements_agc_conf with
      | nil => exact absurd h hne
      | cons _ _ => rfl
    have hm : _match_confs d = (true, d) := by
      unfold _match_confs
      simp [he, hdiff]
    refine ⟨by rw [hm], ?_⟩
    unfold main
    simp [hm]
  · intro heq
    have hm : _match_confs d = (false, d) := by
      unfold _match_confs
      cases h : d.measurements_agc_conf with
      | nil =>
        have h2 : d.agc_conf = [] := by rw [heq, h]
        simp only [List.isEmpty_nil, if_true, h2]
        congr 1
        cases d
        simp_all
      | cons x xs =>
        simp [heq, h]
    exact ⟨by rw [hm], by rw [hm], main_past_guard std_sort c d samples (by rw [hm])⟩
  · intro hnil
    have hm : _match_confs d = (false, { d with measurements_agc_conf := d.agc_conf }) := by
      unfold _match_confs
      simp [hnil]
    exact ⟨hm, main_past_guard std_sort c d samples (by rw [hm])⟩

/-- Witness for C9: stored fingerprint `B`, current configuration `A`, stores
present; the guard reports the mismatch and the disk is left as it was. -/
theorem match_confs_guard_witness :
    (_match_confs ⟨[65], [66], some [1], some [2], some [3], none⟩).1 = true ∧
    main insertion_sort ⟨0, false, 0, false, 10, 1, 1, 0, 0⟩
      ⟨[65], [66], some [1], some [2], some [3], none⟩
        [⟨5, 0, true⟩] =
      (⟨[65], [66], some [1], some [2], some [3], none⟩, none) :=
  (match_confs_guard insertion_sort ⟨0, false, 0, false, 10, 1, 1, 0, 0⟩
    ⟨[65], [66], some [1], some [2], some [3], none⟩ [⟨5, 0, true⟩]).1 (by decide) (by decide)

/-- Counterexample to C9 as stated: the stored fingerprint is the empty
string, the current configuration is `A`, so the two differ. `_match_confs`
reports no mismatch, overwrites the stored fingerprint with `A`, and the run
proceeds to rewrite the stores. -/
theorem match_confs_empty_fingerprint :
    ([65] : List Nat) ≠ [] ∧
    (_match_confs ⟨[65], [], some [7], none, none, none⟩).1 = false ∧
    (_match_confs ⟨[65], [], some [7], none, none, none⟩).2.measurements_agc_conf = [65] ∧
    (main insertion_sort ⟨0, false, 0, false, 10, 1, 1, 0, 0⟩ ⟨[65], [], some [7], none, none, none⟩
      []).2.isSome = true ∧
    (main insertion_sort ⟨0, false, 0, false, 10, 1, 1, 0, 0⟩ ⟨[65], [], some [7], none, none, none⟩
      []).1.gamma_dat = some [0] := by
  decide

/-! ## C10: what is still buffered when the loop is left -/

theorem window_release_buffer_mem (c : Conf) (fuel : Nat) (buf : List peak) (e : peak)
    (he : e ∈ (window_release c fuel buf).2) : e ∈ buf := by
  rw [← window_release_append c fuel buf]
  exact List.mem_append_right _ he

/-- The singles update indexes its array below `ENmax`: finalizing an event
either leaves a spectrum as it is or increments it at an index below the
`ENmax` of that channel. -/
theorem singles_index_guard (c : Conf) (e : peak) (s : State) :
    ((finalize c e s).alpha_array = s.alpha_array ∨
      ∃ k : Nat, (k : Int) < ENmax_alpha c ∧
        (finalize c e s).alpha_array = inc1 s.alpha_array k) ∧
    ((finalize c e s).gamma_array = s.gamma_array ∨
      ∃ k : Nat, (k : Int) < ENmax_gamma c ∧
        (finalize c e s).gamma_array = inc1 s.gamma_array k) := by
  rw [finalize_alpha_array, finalize_gamma_array]
  constructor
  · split
    · rename_i h
      exact Or.inr ⟨_, h.2, rfl⟩
    · exact Or.inl rfl
  · split
    · rename_i h
      exact Or.inr ⟨_, h.2, rfl⟩
    · exact Or.inl rfl

/-- The gamma-triggered scan increments only cells inside the cube: both bins
below the bin counts and the offset below the allocated length
`2*interval_uint`. -/
theorem gamma_scan_index_guard (c : Conf) (ts : Nat) (amp : Int) (a b t : Nat) (p : peak)
    (h : gamma_hits_cell c ts amp a b t p = true) :
    a < alpha_binN c ∧ b < gamma_binN c ∧ t < two_interval c := by
  unfold gamma_hits_cell at h
  simp only [decide_eq_true_eq] at h
  obtain ⟨h1, ⟨h2, h3⟩, h4, h5, h6⟩ := h
  exact ⟨by rw [← h4]; exact h2, by rw [← h5]; exact h3, by rw [← h6]; exact h1⟩

/-- The alpha-triggered scan increments only cells with both bins below the
bin counts and the offset at most `interval_uint`; that is below the
allocated length `2*interval_uint` when `interval >= 1` and `2*interval` does
not overflow 32 bits. -/
theorem alpha_scan_index_guard (c : Conf) (ts : Nat) (amp : Int) (a b t : Nat) (p : peak)
    (h : alpha_hits_cell c ts amp a b t p = true) :
    a < alpha_binN c ∧ b < gamma_binN c ∧ t ≤ c.interval_uint ∧
      (1 ≤ c.interval_uint → 2 * c.interval_uint < 4294967296 → t < two_interval c) := by
  unfold alpha_hits_cell at h
  simp only [decide_eq_true_eq] at h
  obtain ⟨h1, ⟨h2, h3⟩, h4, h5, h6⟩ := h
  refine ⟨by rw [← h4]; exact h2, by rw [← h5]; exact h3, by rw [← h6]; exact h1, ?_⟩
  intro hI h2I
  rw [two_interval_eq c h2I, ← h6]
  omega

/-- In the three sample lists at which the alpha-triggered scan is evaluated
below, the comparator orders the events and separates every two of them, so
that every routine with the contract of `std::sort` runs the loop as
`insertion_sort` does (`acquire_unique`). -/
theorem alpha_scan_inputs_separated :
    sortfun_valid [⟨5, 0, false⟩, ⟨6, 0, false⟩, ⟨5, 0, true⟩] = true ∧
    ([⟨5, 0, false⟩, ⟨6, 0, false⟩, ⟨5, 0, true⟩] : List peak).Pairwise
      (fun a b => a = b ∨ sortfun a b ≠ sortfun b a) ∧
    sortfun_valid [⟨1000, 0, false⟩, ⟨1100, 0, true⟩, ⟨800000000, 0, false⟩] = true ∧
    ([⟨1000, 0, false⟩, ⟨1100, 0, true⟩, ⟨800000000, 0, false⟩] : List peak).Pairwise
      (fun a b => a = b ∨ sortfun a b ≠ sortfun b a) ∧
    sortfun_valid [⟨1000, 0, false⟩, ⟨1100, 0, true⟩, ⟨2000, 0, false⟩] = true ∧
    ([⟨1000, 0, false⟩, ⟨1100, 0, true⟩, ⟨2000, 0, false⟩] : List peak).Pairwise
      (fun a b => a = b ∨ sortfun a b ≠ sortfun b a) := by
  decide

/-- C11, the code at three failing inputs. First: interval 0 (so every offset
row is allocated with `2*interval_uint = 0` words), samples gamma at tick 5,
gamma at tick 6, alpha at tick 5; the alpha event is released after the gamma
event of the same tick and the alpha-triggered scan increments
`bins[0][0][0]`. Second: interval 2500000000 ticks (20 s, rows of
`2*interval_uint = 705032704` words), samples gamma at 1000, alpha at 1100,
gamma at 800000000; the alpha-triggered scan increments
`bins[0][0][2499999900]`. Third: interval 2147483698 ticks (about 17.18 s,
rows of `2*interval_uint = 100` words), samples gamma at 1000, alpha at 1100,
gamma at 2000; the alpha-triggered scan increments `bins[0][0][2147483598]`.
In all three the guard `<= interval_uint` of the alpha-triggered scan lets
through an offset that is not below the allocated length, which the guard
`< 2*interval_uint` of the gamma-triggered scan excludes. -/
theorem alpha_scan_index_past_row :
    two_interval ⟨0, false, 0, false, 0, 1, 1, 10, 10⟩ = 0 ∧
    alpha_hits_cell ⟨0, false, 0, false, 0, 1, 1, 10, 10⟩ 5 0 0 0 0 ⟨5, 0, false⟩ = true ∧
    (load ⟨0, false, 0, false, 0, 1, 1, 10, 10⟩
      ⟨[65], [], none, none, none, none⟩).map (fun s => s.bins 0 0 0) = some 0 ∧
    ((load ⟨0, false, 0, false, 0, 1, 1, 10, 10⟩ ⟨[65], [], none, none, none, none⟩).bind
      fun s => acquire insertion_sort ⟨0, false, 0, false, 0, 1, 1, 10, 10⟩ s
        [⟨5, 0, false⟩, ⟨6, 0, false⟩, ⟨5, 0, true⟩]).map (fun s => s.bins 0 0 0) = some 1 ∧
    two_interval ⟨0, false, 0, false, 2500000000, 1, 1, 10, 10⟩ = 705032704 ∧
    alpha_hits_cell ⟨0, false, 0, false, 2500000000, 1, 1, 10, 10⟩ 1100 0 0 0 2499999900
      ⟨1000, 0, false⟩ = true ∧
    (load ⟨0, false, 0, false, 2500000000, 1, 1, 10, 10⟩
      ⟨[65], [], none, none, none, none⟩).map (fun s => s.bins 0 0 2499999900) = some 0 ∧
    ((load ⟨0, false, 0, false, 2500000000, 1, 1, 10, 10⟩
      ⟨[65], [], none, none, none, none⟩).bind
      fun s => acquire insertion_sort ⟨0, false, 0, false, 2500000000, 1, 1, 10, 10⟩ s
        [⟨1000, 0, false⟩, ⟨1100, 0, true⟩, ⟨800000000, 0, false⟩]).map
      (fun s => s.bins 0 0 2499999900) = some 1 ∧
    two_interval ⟨0, false, 0, false, 2147483698, 1, 1, 10, 10⟩ = 100 ∧
    alpha_hits_cell ⟨0, false, 0, false, 2147483698, 1, 1, 10, 10⟩ 1100 0 0 0 2147483598
      ⟨1000, 0, false⟩ = true ∧
    (load ⟨0, false, 0, false, 2147483698, 1, 1, 10, 10⟩
      ⟨[65], [], none, none, none, none⟩).map (fun s => s.bins 0 0 2147483598) = some 0 ∧
    ((load ⟨0, false, 0, false, 2147483698, 1, 1, 10, 10⟩
      ⟨[65], [], none, none, none, none⟩).bind
      fun s => acquire insertion_sort ⟨0, false, 0, false, 2147483698, 1, 1, 10, 10⟩ s
        [⟨1000, 0, false⟩, ⟨1100, 0, true⟩, ⟨2000, 0, false⟩]).map
      (fun s => s.bins 0 0 2147483598) = some 1 := by
  decide

/-! ## C12: length of the singles spectra -/

theorem load_array_eq_some {n : Nat} {file : Option (List Nat)} {arr : Nat → Nat}
    (h : load_array n file = some arr) :
    (∀ f, file = some f → n ≤ f.length ∧ ∀ i, i < n → f[i]? = some (arr i)) ∧
      (file = none → ∀ i, arr i = 0) := by
  unfold load_array at h
  cases file with
  | none =>
    simp only [Option.some.injEq] at h
    refine ⟨fun f hf => absurd hf (by simp), fun _ i => ?_⟩
    rw [← h]
  | some f =>
    simp only at h
    split at h
    · rename_i hn
      simp only [Option.some.injEq] at h
      refine ⟨fun f2 hf2 => ?_, fun hf => absurd hf (by simp)⟩
      have hff : f = f2 := Option.some.inj hf2
      subst hff
      refine ⟨hn, fun i hi => ?_⟩
      rw [← h]
      simp only [hi, if_true]
      rw [List.getD_eq_getElem?_getD, List.getElem?_eq_getElem (by omega)]
      rfl
    · exact absurd h (by simp)

theorem load_array_short {n : Nat} {f : List Nat} (h : f.length < n) :
    load_array n (some f) = none := by
  unfold load_array
  simp only
  rw [if_neg (by omega)]

theorem load_eq_some {c : Conf} {d : Disk} {s0 : State} (h : load c d = some s0) :
    load_array (ENmax_alpha c).toNat d.alpha_dat = some s0.alpha_array ∧
      load_array (ENmax_gamma c).toNat d.gamma_dat = some s0.gamma_array ∧
      load_bins c d.time_dat = some s0.bins := by
  unfold load at h
  split at h
  · rename_i a g b ha hg hb
    rw [← Option.some.inj h]
    exact ⟨ha, hg, hb⟩
  · exact absurd h (by simp)

theorem load_short_alpha {c : Conf} {d : Disk} {f : List Nat} (hf : d.alpha_dat = some f)
    (h : f.length < (ENmax_alpha c).toNat) : load c d = none := by
  unfold load
  rw [hf, load_array_short h]

theorem load_short_gamma {c : Conf} {d : Disk} {f : List Nat} (hf : d.gamma_dat = some f)
    (h : f.length < (ENmax_gamma c).toNat) : load c d = none := by
  unfold load
  rw [hf, load_array_short h]
  cases load_array (ENmax_alpha c).toNat d.alpha_dat <;> rfl

/-- C12 (as amended): for every configuration with non-zero steps and
`ENmax > 0`, the singles spectrum of each channel has `ENmax` words, one per
amplitude code `abs(amplitude - thresh)`, in memory and as persisted.
* `alpha.dat` and `gamma.dat` are written with exactly `ENmax` words.
* At start `ENmax` words are read from an existing file into the array, or
  `ENmax` words are set to 0 when there is no file; a file with fewer than
  `ENmax` words leaves the words it does not reach uninitialised.
* A spectrum written and read back is the same on every index below `ENmax`. -/
theorem singles_length (c : Conf) (s : State) (d : Disk)
    (_hsa : 0 < c.step_alpha) (_hsg : 0 < c.step_gamma)
    (hA : 0 < ENmax_alpha c) (hG : 0 < ENmax_gamma c) :
    (∃ la lg : List Nat,
      (save c s d).alpha_dat = some la ∧ (save c s d).gamma_dat = some lg ∧
      (la.length : Int) = ENmax_alpha c ∧ (lg.length : Int) = ENmax_gamma c) ∧
    (∀ s0 : State, load c d = some s0 →
      (∀ f : List Nat, d.alpha_dat = some f →
        ENmax_alpha c ≤ (f.length : Int) ∧
        ∀ i : Nat, (i : Int) < ENmax_alpha c → f[i]? = some (s0.alpha_array i)) ∧
      (d.alpha_dat = none → ∀ i : Nat, (i : Int) < ENmax_alpha c → s0.alpha_array i = 0) ∧
      (∀ f : List Nat, d.gamma_dat = some f →
        ENmax_gamma c ≤ (f.length : Int) ∧
        ∀ i : Nat, (i : Int) < ENmax_gamma c → f[i]? = some (s0.gamma_array i)) ∧
      (d.gamma_dat = none → ∀ i : Nat, (i : Int) < ENmax_gamma c → s0.gamma_array i = 0)) ∧
    (∀ f : List Nat, d.alpha_dat = some f → (f.length : Int) < ENmax_alpha c →
      load c d = none) ∧
    (∀ f : List Nat, d.gamma_dat = some f → (f.length : Int) < ENmax_gamma c →
      load c d = none) ∧
    (∃ s2 : State, load c (save c s d) = some s2 ∧
      (∀ i : Nat, (i : Int) < ENmax_alpha c → s2.alpha_array i = s.alpha_array i) ∧
      (∀ i : Nat, (i : Int) < ENmax_gamma c → s2.gamma_array i = s.gamma_array i)) := by
  refine ⟨⟨dump_array (ENmax_alpha c).toNat s.alpha_array,
    dump_array (ENmax_gamma c).toNat s.gamma_array, rfl, rfl, ?_, ?_⟩, ?_, ?_, ?_, ?_⟩
  · rw [dump_array_length]; omega
  · rw [dump_array_length]; omega
  · intro s0 hs0
    obtain ⟨ha, hg, _⟩ := load_eq_some hs0
    have ha2 := load_array_eq_some ha
    have hg2 := load_array_eq_some hg
    refine ⟨?_, ?_, ?_, ?_⟩
    · intro f hf
      obtain ⟨h1, h2⟩ := ha2.1 f hf
      exact ⟨by omega, fun i hi => h2 i (by omega)⟩
    · intro hn i _
      exact ha2.2 hn i
    · intro f hf
      obtain ⟨h1, h2⟩ := hg2.1 f hf
      exact ⟨by omega, fun i hi => h2 i (by omega)⟩
    · intro hn i _
      exact hg2.2 hn i
  · intro f hf hlt
    exact load_short_alpha hf (by omega)
  · intro f hf hlt
    exact load_short_gamma hf (by omega)
  · refine ⟨_, load_save c s d, ?_, ?_⟩
    · intro i hi
      have hi2 : i < (ENmax_alpha c).toNat := by omega
      simp only [hi2, if_true]
    · intro i hi
      have hi2 : i < (ENmax_gamma c).toNat := by omega
      simp only [hi2, if_true]

/-- Witness for C12: rising edges, thresholds 0, maxima 2 (`ENmax = 3`),
steps 3, `alpha.dat` holding the three words 7, 8, 9 and no other store.
Both files are written with 3 words, and the three words of `alpha.dat` are
the alpha spectrum with which the loop is entered. -/
theorem singles_length_witness :
    (∃ la lg : List Nat,
      (save ⟨0, false, 0, false, 10, 3, 3, 2, 2⟩ init_state
        ⟨[65], [], some [7, 8, 9], none, none, none⟩).alpha_dat = some la ∧
      (save ⟨0, false, 0, false, 10, 3, 3, 2, 2⟩ init_state
        ⟨[65], [], some [7, 8, 9], none, none, none⟩).gamma_dat = some lg ∧
      (la.length : Int) = 3 ∧ (lg.length : Int) = 3) ∧
    (load ⟨0, false, 0, false, 10, 3, 3, 2, 2⟩
      ⟨[65], [], some [7, 8, 9], none, none, none⟩).map
        (fun s0 => (s0.alpha_array 0, s0.alpha_array 1, s0.alpha_array 2,
          s0.gamma_array 0, s0.gamma_array 1, s0.gamma_array 2)) = some (7, 8, 9, 0, 0, 0) ∧
    load ⟨0, false, 0, false, 10, 3, 3, 2, 2⟩
      ⟨[65], [], some [7, 8], none, none, none⟩ = none := by
  have h := singles_length ⟨0, false, 0, false, 10, 3, 3, 2, 2⟩ init_state
    ⟨[65], [], some [7, 8, 9], none, none, none⟩ (by decide) (by decide) (by decide) (by decide)
  have h2 := singles_length ⟨0, false, 0, false, 10, 3, 3, 2, 2⟩ init_state
    ⟨[65], [], some [7, 8], none, none, none⟩ (by decide) (by decide) (by decide) (by decide)
  refine ⟨h.1, by decide, h2.2.2.1 [7, 8] rfl (by decide)⟩

/-- Counterexample to C12 as stated: the template configuration of the
program (thresholds -600, falling edges, maxima -8191, steps 100000). The bin
count is `7592/100000 + 1 = 1`, while `alpha.dat` is written with 7592 words
and an alpha event of amplitude -700 is counted at index 100 of the spectrum. -/
theorem singles_longer_than_bin_count :
    (0 : Int) < ENmax_alpha ⟨-600, true, -600, true, 1250, 100000, 100000, -8191, -8191⟩ ∧
    alpha_binN ⟨-600, true, -600, true, 1250, 100000, 100000, -8191, -8191⟩ = 1 ∧
    (∃ la : List Nat,
      (save ⟨-600, true, -600, true, 1250, 100000, 100000, -8191, -8191⟩ init_state
        ⟨[65], [], none, none, none, none⟩).alpha_dat = some la ∧ la.length = 7592) ∧
    (finalize ⟨-600, true, -600, true, 1250, 100000, 100000, -8191, -8191⟩ ⟨1000, -700, true⟩
      init_state).alpha_array 100 = 1 :=
  ⟨by decide, by decide, ⟨_, rfl, by rw [dump_array_length]; decide⟩, by decide⟩

/-! ## C13: telemetry lines -/

theorem stream_sample_ok (ft : Nat → String) (fa : Int → String) (x : peak) (t : Tcp)
    (hconn : t.tcp_connected = true) (hsock : 0 ≤ t.client_socket) :
    stream_sample ft fa x true t = { t with sent := t.sent ++ [csv_line ft fa x] } := by
  unfold stream_sample send_tcp_data
  simp [hconn, hsock]

theorem acquire_tcp_cons (std_sort : List peak → List peak)
    (c : Conf) (ft : Nat → String) (fa : Int → String)
    (t : Tcp) (s : State) (x : peak × Bool) (xs : List (peak × Bool)) :
    acquire_tcp std_sort c ft fa (t, s) (x :: xs) =
      (step std_sort c s x.1).bind fun s1 =>
        acquire_tcp std_sort c ft fa (stream_sample ft fa x.1 x.2 t, s1) xs := by
  have h : acquire_tcp std_sort c ft fa (t, s) (x :: xs) =
      (match step_tcp std_sort c ft fa (t, s) x with
      | none => none
      | some st1 => acquire_tcp std_sort c ft fa st1 xs) := rfl
  rw [h]
  unfold step_tcp
  cases step std_sort c s x.1 <;> rfl

theorem acquire_tcp_ok (std_sort : List peak → List peak)
    (c : Conf) (ft : Nat → String) (fa : Int → String)
    (samples : List (peak × Bool)) :
    ∀ (t : Tcp) (s : State), t.tcp_connected = true → 0 ≤ t.client_socket →
      (∀ x ∈ samples, x.2 = true) →
      acquire_tcp std_sort c ft fa (t, s) samples =
        (acquire std_sort c s (samples.map Prod.fst)).map fun s2 =>
          ({ t with sent := t.sent ++ samples.map fun x => csv_line ft fa x.1 }, s2) := by
  induction samples with
  | nil => intro t s _ _ _; simp [acquire_tcp, acquire]
  | cons x xs ih =>
    intro t s hconn hsock hok
    have hx : x.2 = true := hok x (List.mem_cons_self _ _)
    simp only [List.map_cons]
    rw [acquire_tcp_cons, acquire_cons, hx, stream_sample_ok ft fa x.1 t hconn hsock]
    cases step std_sort c s x.1 with
    | none => rfl
    | some s1 =>
      simp only [Option.some_bind]
      rw [ih { t with sent := t.sent ++ [csv_line ft fa x.1] } s1 hconn hsock
        (fun y hy => hok y (List.mem_cons_of_mem _ hy))]
      simp [List.append_assoc]

theorem csv_line_alpha (ft : Nat → String) (fa : Int → String) (x : peak)
    (h : x.isalpha = true) :
    csv_line ft fa x = ft x.time ++ "," ++ fa x.amp ++ ",0,0\n" := by
  unfold csv_line
  rw [if_pos h, String.append_assoc (ft x.time ++ "," ++ fa x.amp)]
  rfl

theorem csv_line_gamma (ft : Nat → String) (fa : Int → String) (x : peak)
    (h : x.isalpha = false) :
    csv_line ft fa x = "0,0," ++ ft x.time ++ "," ++ fa x.amp ++ "\n" := by
  unfold csv_line
  simp [h]

/-- Telemetry of a run on which every call of `std::sort` is defined: with
a subscriber connected (`tcp_connected`, a valid client socket) and every
`send` succeeding, the acquisition loop publishes exactly one line per raw
sample, in order, after whatever was sent before (the header line of
`accept_tcp_connection`); the lines depend on the samples alone and are sent
before the sample enters the reordering window. The line of an alpha sample
is the formatted time, a comma, the formatted amplitude, and `,0,0` with a
newline; the line of a gamma sample starts with `0,0,`. -/
theorem telemetry_lines_defined (std_sort : List peak → List peak)
    (c : Conf) (ft : Nat → String) (fa : Int → String)
    (t0 : Tcp) (s0 s1 : State) (samples : List (peak × Bool))
    (hconn : t0.tcp_connected = true) (hsock : 0 ≤ t0.client_socket)
    (hok : ∀ x ∈ samples, x.2 = true)
    (hrun : acquire std_sort c s0 (samples.map Prod.fst) = some s1) :
    ∃ t1 : Tcp, acquire_tcp std_sort c ft fa (t0, s0) samples = some (t1, s1) ∧
      t1.sent = t0.sent ++ samples.map (fun x => csv_line ft fa x.1) ∧
      t1.sent.length = t0.sent.length + samples.length ∧
      t1.tcp_connected = true ∧
      (∀ x : peak, x.isalpha = true →
        csv_line ft fa x = ft x.time ++ "," ++ fa x.amp ++ ",0,0\n") ∧
      (∀ x : peak, x.isalpha = false →
        csv_line ft fa x = "0,0," ++ ft x.time ++ "," ++ fa x.amp ++ "\n") ∧
      ((∀ x ∈ samples, x.1.isalpha = true) →
        t1.sent =
          t0.sent ++ samples.map (fun x => ft x.1.time ++ "," ++ fa x.1.amp ++ ",0,0\n")) := by
  have h := acquire_tcp_ok std_sort c ft fa samples t0 s0 hconn hsock hok
  rw [hrun] at h
  refine ⟨_, h, rfl, by simp, hconn, csv_line_alpha ft fa, csv_line_gamma ft fa, ?_⟩
  intro hall
  simp only
  congr 1
  apply List.map_congr_left
  intro x hx
  exact csv_line_alpha ft fa x.1 (hall x hx)

/-- Two alpha samples of different ticks, the subscriber accepted on socket 4
with the header delivered, both sends succeeding: the stream is the header
followed by the two alpha lines. -/
theorem telemetry_lines_defined_witness :
    ∃ (t1 : Tcp) (s1 : State),
      acquire_tcp insertion_sort ⟨0, false, 0, false, 10, 1, 1, 100, 100⟩
        (fun n => toString n) (fun a => toString a)
        ((accept_tcp_connection 4 true ⟨false, -1, []⟩).2, init_state)
        [(⟨50, 7, true⟩, true), (⟨100, 8, true⟩, true)] = some (t1, s1) ∧
      t1.sent =
        ["time_alpha,amp_alpha,time_gamma,amp_gamma\n", "50,7,0,0\n", "100,8,0,0\n"] := by
  have hr : window_run insertion_sort ⟨0, false, 0, false, 10, 1, 1, 100, 100⟩ []
      [⟨50, 7, true⟩, ⟨100, 8, true⟩] = some ([⟨50, 7, true⟩], [⟨100, 8, true⟩]) := by
    decide
  obtain ⟨t1, h1, h2, _⟩ := telemetry_lines_defined insertion_sort
    ⟨0, false, 0, false, 10, 1, 1, 100, 100⟩
    (fun n => toString n) (fun a => toString a)
    (accept_tcp_connection 4 true ⟨false, -1, []⟩).2 init_state _
    [(⟨50, 7, true⟩, true), (⟨100, 8, true⟩, true)]
    rfl (by decide) (by decide) (acquire_init_state hr)
  refine ⟨t1, _, h1, ?_⟩
  rw [h2]
  decide

/-- C13, the code at a failing input: 41 alpha samples, 40 at tick 5 followed
by one at tick 1000, interval 10, the subscriber connected and every `send`
succeeding.  `sortfun` places each of two alpha events of one tick before the
other, so from the second sample on the buffer handed to `std::sort` is one
on which the comparator is no ordering and the behaviour of the loop is
undefined; nothing says that 41 lines are published.  The events at tick 5
are not released before the last sample arrives (`5 > 5 + 2*interval` is
false), so the buffer grows with every sample. -/
theorem telemetry_undefined_on_equal_ticks :
    sortfun ⟨5, 0, true⟩ ⟨5, 0, true⟩ = true ∧
    sort insertion_sort [⟨5, 0, true⟩] = some [⟨5, 0, true⟩] ∧
    sort insertion_sort [⟨5, 0, true⟩, ⟨5, 0, true⟩] = none ∧
    (List.replicate 40 ((⟨5, 0, true⟩ : peak), true) ++
      [((⟨1000, 0, true⟩ : peak), true)]).length = 41 ∧
    (acquire_tcp insertion_sort ⟨0, false, 0, false, 10, 1, 1, 100, 100⟩
      (fun n => toString n) (fun a => toString a)
      ((accept_tcp_connection 4 true ⟨false, -1, []⟩).2, init_state)
      (List.replicate 40 ((⟨5, 0, true⟩ : peak), true) ++
        [(⟨1000, 0, true⟩, true)])).isSome = false ∧
    (acquire insertion_sort ⟨0, false, 0, false, 10, 1, 1, 100, 100⟩ init_state
      (List.replicate 40 (⟨5, 0, true⟩ : peak) ++ [⟨1000, 0, true⟩])).isSome = false := by
  decide

/-! ## C14: bounded disorder -/

/-- Every event the release loop pops passed the release test against an event
of the buffer. -/
theorem window_release_released (c : Conf) :
    ∀ (fuel : Nat) (buf : List peak) (e : peak), e ∈ (window_release c fuel buf).1 →
      ∃ y ∈ buf, release_cond c e y = true := by
  intro fuel
  induction fuel with
  | zero => intro buf e he; simp [window_release] at he
  | succ n ih =>
    intro buf e he
    cases buf with
    | nil => simp [window_release] at he
    | cons front rest =>
      rw [window_release_succ_cons] at he
      split at he
      · rename_i hc
        rcases List.mem_cons.mp he with rfl | hin
        · exact ⟨_, List.getLast_mem _, hc⟩
        · obtain ⟨y, hy, hyc⟩ := ih rest e hin
          exact ⟨y, List.mem_cons_of_mem _ hy, hyc⟩
      · simp at he

theorem window_release_released_mem (c : Conf) (fuel : Nat) (buf : List peak) (e : peak)
    (he : e ∈ (window_release c fuel buf).1) : e ∈ buf := by
  rw [← window_release_append c fuel buf]
  exact List.mem_append_left _ he

theorem mem_sort_snoc {std_sort : List peak → List peak} (hsort : std_sort_contract std_sort)
    {e x : peak} {buf l : List peak} (hl : sort std_sort (buf ++ [x]) = some l)
    (h : e ∈ l) : e ∈ buf ∨ e = x := by
  rcases List.mem_append.mp ((mem_sort hsort hl).mp h) with h1 | h1
  · exact Or.inl h1
  · exact Or.inr (List.mem_singleton.mp h1)

/-- Every event the window finalizes is one that arrived, and it passed the
release test against another event that had arrived by then. -/
theorem window_run_released (std_sort : List peak → List peak)
    (hsort : std_sort_contract std_sort) (c : Conf) (xs : List peak) :
    ∀ (buf : List peak) (r : List peak × List peak) (e : peak),
      window_run std_sort c buf xs = some r → e ∈ r.1 →
      (e ∈ buf ∨ e ∈ xs) ∧ ∃ y, (y ∈ buf ∨ y ∈ xs) ∧ release_cond c e y = true := by
  induction xs with
  | nil =>
    intro buf r e hr he
    rw [window_run_nil] at hr
    rw [← Option.some.inj hr] at he
    simp at he
  | cons x xs ih =>
    intro buf r e hr he
    obtain ⟨r1, r2, h1, h2, hreq⟩ := window_run_cons_eq_some hr
    obtain ⟨l, hl, hr1⟩ := window_step_eq_some h1
    rw [hreq] at he
    rcases List.mem_append.mp he with h3 | h3
    · rw [hr1] at h3
      have hm := mem_sort_snoc hsort hl (window_release_released_mem c _ _ e h3)
      obtain ⟨y, hy, hyc⟩ := window_release_released c _ _ e h3
      have hym := mem_sort_snoc hsort hl hy
      refine ⟨?_, y, ?_, hyc⟩
      · rcases hm with h | h
        · exact Or.inl h
        · exact Or.inr (h ▸ List.mem_cons_self _ _)
      · rcases hym with h | h
        · exact Or.inl h
        · exact Or.inr (h ▸ List.mem_cons_self _ _)
    · obtain ⟨hm, y, hy, hyc⟩ := ih _ r2 e h2 h3
      have hsub : ∀ z, z ∈ r1.2 → z ∈ buf ∨ z ∈ x :: xs := by
        intro z hz
        rw [hr1] at hz
        rcases mem_sort_snoc hsort hl (window_release_buffer_mem c _ _ z hz) with h | h
        · exact Or.inl h
        · exact Or.inr (h ▸ List.mem_cons_self _ _)
      refine ⟨?_, y, ?_, hyc⟩
      · rcases hm with h | h
        · exact hsub e h
        · exact Or.inr (List.mem_cons_of_mem _ h)
      · rcases hy with h | h
        · exact hsub y h
        · exact Or.inr (List.mem_cons_of_mem _ h)

/-- Under bounded disorder and without wrap, an arriving event lies strictly
above every event finalized before it arrives. -/
theorem arrival_above_finalized (std_sort : List peak → List peak)
    (hsort : std_sort_contract std_sort) (c : Conf) (arr : List peak)
    (h2I : 2 * c.interval_uint < 4294967296)
    (hw : ∀ x ∈ arr, x.time + 2 * c.interval_uint < 18446744073709551616)
    (hbd : ∀ k (hk : k < arr.length), ∀ y ∈ arr.take k,
      y.time ≤ arr[k].time + 2 * c.interval_uint) :
    ∀ k (hk : k < arr.length), ∀ rk, window_run std_sort c [] (arr.take k) = some rk →
      ∀ e ∈ rk.1, e.time < arr[k].time := by
  intro k hk rk hrk e he
  obtain ⟨hm, y, hy, hyc⟩ := window_run_released std_sort hsort c (arr.take k) [] rk e hrk he
  have hem : e ∈ arr.take k := by
    rcases hm with h | h
    · simp at h
    · exact h
  have hym : y ∈ arr.take k := by
    rcases hy with h | h
    · simp at h
    · exact h
  have hwe := hw e (List.mem_of_mem_take hem)
  have hb := hbd k hk y hym
  unfold release_cond at hyc
  rw [two_interval_eq c h2I, Nat.mod_eq_of_lt hwe] at hyc
  simp only [decide_eq_true_eq] at hyc
  omega

/-- C14 (as amended): on a sequence of arrivals on which every call of
`std::sort` is defined, whichever routine `std_sort` with the contract of
`std::sort` does the sorting, if `2*interval < 2^32`, every timestamp plus
`2*interval` stays below `2^64`, and every arriving event has a timestamp no
more than `2*interval` ticks below the timestamps that arrived before it, then
the finalization sequence of the reordering window is non-decreasing in
timestamp, and every event that arrives after some event was finalized has a
timestamp strictly greater than that event's (a later arrival may lie within
`interval` of a finalized event, but only above it, so it is finalized after
it). -/
theorem bounded_disorder (std_sort : List peak → List peak)
    (hsort : std_sort_contract std_sort) (c : Conf) (arr : List peak)
    (r : List peak × List peak) (hrun : window_run std_sort c [] arr = some r)
    (h2I : 2 * c.interval_uint < 2 ^ 32)
    (hw : ∀ x ∈ arr, x.time + 2 * c.interval_uint < 2 ^ 64)
    (hbd : ∀ k (hk : k < arr.length), ∀ y ∈ arr.take k,
      y.time ≤ arr[k].time + 2 * c.interval_uint) :
    r.1.Pairwise (fun a b => a.time ≤ b.time) ∧
    ∀ k (hk : k < arr.length), ∀ rk ∈ window_run std_sort c [] (arr.take k),
      ∀ e ∈ rk.1, e.time < arr[k].time := by
  have habove := arrival_above_finalized std_sort hsort c arr (by norm_num at h2I ⊢; exact h2I)
    (by norm_num at hw ⊢; exact hw) hbd
  refine ⟨?_, fun k hk rk hrk => habove k hk rk (Option.mem_def.mp hrk)⟩
  have := window_run_sorted_aux std_sort hsort c arr [] [] r hrun List.Pairwise.nil
    List.Pairwise.nil
    (by simp) (by
      intro k hk rk hrk e he
      simp only [List.nil_append] at he
      exact Nat.le_of_lt (habove k hk rk hrk e he))
  simp only [List.nil_append] at this
  exact (List.pairwise_append.mp this).1

/-- Witness for C14: interval 10, arrivals at 50, 100, 80, 200; the event at 80
arrives 20 ticks below the largest earlier timestamp. The window finalizes 50,
80, 100, and each arrival lies above what was finalized before it. -/
theorem bounded_disorder_witness :
    window_run insertion_sort ⟨0, false, 0, false, 10, 1, 1, 100, 100⟩ []
        [⟨50, 0, true⟩, ⟨100, 0, false⟩, ⟨80, 0, true⟩, ⟨200, 0, false⟩]
      = some ([⟨50, 0, true⟩, ⟨80, 0, true⟩, ⟨100, 0, false⟩], [⟨200, 0, false⟩]) ∧
    ([⟨50, 0, true⟩, ⟨80, 0, true⟩, ⟨100, 0, false⟩] : List peak).Pairwise
      (fun a b => a.time ≤ b.time) ∧
    ∀ k (hk : k < [(⟨50, 0, true⟩ : peak), ⟨100, 0, false⟩, ⟨80, 0, true⟩,
        ⟨200, 0, false⟩].length),
      ∀ rk ∈ window_run insertion_sort ⟨0, false, 0, false, 10, 1, 1, 100, 100⟩ []
        ([(⟨50, 0, true⟩ : peak), ⟨100, 0, false⟩, ⟨80, 0, true⟩, ⟨200, 0, false⟩].take k),
        ∀ e ∈ rk.1,
          e.time < ([(⟨50, 0, true⟩ : peak), ⟨100, 0, false⟩, ⟨80, 0, true⟩,
            ⟨200, 0, false⟩][k]).time :=
  ⟨by decide,
    bounded_disorder insertion_sort insertion_sort_contract
      ⟨0, false, 0, false, 10, 1, 1, 100, 100⟩
      [⟨50, 0, true⟩, ⟨100, 0, false⟩, ⟨80, 0, true⟩, ⟨200, 0, false⟩]
      ([⟨50, 0, true⟩, ⟨80, 0, true⟩, ⟨100, 0, false⟩], [⟨200, 0, false⟩])
      (by decide) (by decide) (by decide) (by decide)⟩

/-- Counterexample to C14 as stated, two inputs with interval 10
(`2*interval = 20 < 2^32`) and bounded disorder, neither with two alpha
events of one tick. First: arrivals at `2^64 - 5` and then `2^64 - 10`;
`front.time + 2*interval_uint` wraps in 64 bits, so each event is released as
soon as it arrives, the event at `2^64 - 5` is finalized before the event at
`2^64 - 10` arrives, and the finalization sequence decreases. Second, without
any wrap: an alpha event at 79, then an event at 100, which finalizes the one
at 79, then a gamma event at 80; the gamma event is a partner within
`interval` of the alpha event and arrives after the alpha event was
finalized. -/
theorem bounded_disorder_limits :
    2 * (⟨0, false, 0, false, 10, 1, 1, 100, 100⟩ : Conf).interval_uint < 2 ^ 32 ∧
    (∀ k (hk : k < [(⟨18446744073709551611, 0, true⟩ : peak),
        ⟨18446744073709551606, 0, false⟩].length),
      ∀ y ∈ [(⟨18446744073709551611, 0, true⟩ : peak),
          ⟨18446744073709551606, 0, false⟩].take k,
        y.time ≤ ([(⟨18446744073709551611, 0, true⟩ : peak),
          ⟨18446744073709551606, 0, false⟩][k]).time +
            2 * (⟨0, false, 0, false, 10, 1, 1, 100, 100⟩ : Conf).interval_uint) ∧
    window_run insertion_sort ⟨0, false, 0, false, 10, 1, 1, 100, 100⟩ []
      [⟨18446744073709551611, 0, true⟩] = some ([⟨18446744073709551611, 0, true⟩], []) ∧
    window_run insertion_sort ⟨0, false, 0, false, 10, 1, 1, 100, 100⟩ []
      [⟨18446744073709551611, 0, true⟩, ⟨18446744073709551606, 0, false⟩] =
      some ([⟨18446744073709551611, 0, true⟩, ⟨18446744073709551606, 0, false⟩], []) ∧
    ¬ ([⟨18446744073709551611, 0, true⟩, ⟨18446744073709551606, 0, false⟩] :
      List peak).Pairwise (fun a b => a.time ≤ b.time) ∧
    (∀ k (hk : k < [(⟨79, 0, true⟩ : peak), ⟨100, 0, false⟩, ⟨80, 0, false⟩].length),
      ∀ y ∈ [(⟨79, 0, true⟩ : peak), ⟨100, 0, false⟩, ⟨80, 0, false⟩].take k,
        y.time ≤ ([(⟨79, 0, true⟩ : peak), ⟨100, 0, false⟩, ⟨80, 0, false⟩][k]).time +
          2 * (⟨0, false, 0, false, 10, 1, 1, 100, 100⟩ : Conf).interval_uint) ∧
    window_run insertion_sort ⟨0, false, 0, false, 10, 1, 1, 100, 100⟩ []
      [⟨79, 0, true⟩, ⟨100, 0, false⟩] = some ([⟨79, 0, true⟩], [⟨100, 0, false⟩]) ∧
    (80 : Nat) - 79 ≤ (⟨0, false, 0, false, 10, 1, 1, 100, 100⟩ : Conf).interval_uint := by
  decide

end AGC
